import Mathlib

/-!
Verification of the iso8583 codec library against its specification.

Bytes are modelled as natural numbers (`Nat`); the Go code's byte values are
always below 256, and theorems carry that bound as a hypothesis where it
matters.  Buffers are `List Nat`.  Fallible Go functions returning
`(value, error)` become `Except Err value`.  The repository contains three
parallel message implementations; they are embedded in the namespaces
`Pooled` (the sync.Pool message of header.go), `ISO` (the map-based message
of iso8583.go) and `Stack` (the zero-allocation message), together with the
shared `BitmapManager` and the TLV codec.
-/

set_option maxRecDepth 4000

/-- Error codes surfaced by the library.  `fieldError n e` models the Go
FieldError wrapper carrying a field number. -/
inductive Err where
  | invalidMTI
  | invalidHeader
  | invalidBitmap
  | invalidBitmapHex
  | invalidLength
  | insufficientData
  | bufferTooSmall
  | fieldNotFound
  | fieldNotConfigured
  | lengthMismatch
  | unsupportedLengthType
  | invalidTLV
  | invalidPackager
  | fieldNumOutOfRange
  | fieldError (n : Nat) (e : Err)
  deriving DecidableEq, Repr

/-- ASCII decimal digit test, as used by the length-prefix readers
(`b < '0' || b > '9'` in the source). -/
def isDigitByte (c : Nat) : Bool := 48 ≤ c && c ≤ 57

/-- Hex digit value accepted by the source's hex decoders: 0-9, A-F, a-f
(encoding/hex.Decode and the hand-rolled hexVal in header.go). -/
def hexVal (c : Nat) : Option Nat :=
  if 48 ≤ c && c ≤ 57 then some (c - 48)
  else if 65 ≤ c && c ≤ 70 then some (c - 65 + 10)
  else if 97 ≤ c && c ≤ 102 then some (c - 97 + 10)
  else none

/-- A character the hex decoders accept (either case). -/
def isHexDigit (c : Nat) : Bool :=
  (48 ≤ c && c ≤ 57) || (65 ≤ c && c ≤ 70) || (97 ≤ c && c ≤ 102)

/-- A character the uppercase hex encoder can emit: 0-9 or A-F. -/
def isUpperHexDigit (c : Nat) : Bool :=
  (48 ≤ c && c ≤ 57) || (65 ≤ c && c ≤ 70)

/-- The lookup `hexTableUpper[v]` of helper.go: digit for v < 10, else
uppercase letter. -/
def upperHexChar (v : Nat) : Nat := if v < 10 then v + 48 else v + 55

/-- encodeHexUpper of helper.go: each source byte becomes two uppercase hex
characters, high nibble first. -/
def encodeHexUpper : List Nat → List Nat
  | [] => []
  | b :: rest => upperHexChar (b >>> 4) :: upperHexChar (b &&& 0x0f) :: encodeHexUpper rest

/-- encoding/hex.Decode on an even-length buffer: consecutive character pairs
become bytes `hi*16+lo`; any non-hex character fails the whole decode. -/
def decodeHex : List Nat → Option (List Nat)
  | [] => some []
  | [_] => none
  | c1 :: c2 :: rest =>
    match hexVal c1, hexVal c2 with
    | some hi, some lo =>
      match decodeHex rest with
      | some bs => some ((hi <<< 4 ||| lo) :: bs)
      | none => none
    | _, _ => none

/-- writeIntToASCII of header.go / iso8583.go: fixed-width zero-padded ASCII
decimal, least significant digit written last. -/
def writeIntToASCII (val : Nat) : Nat → List Nat
  | 0 => []
  | d + 1 => writeIntToASCII (val / 10) d ++ [val % 10 + 48]

/-- Decimal value of a run of ASCII digit characters (reading a length
prefix back). -/
def asciiDigitsVal (cs : List Nat) : Nat :=
  cs.foldl (fun a c => a * 10 + (c - 48)) 0

namespace BitmapManager

end BitmapManager

/-- BitmapManager state: 8 primary bytes, 8 secondary bytes and the DE 1
indicator flag, exactly the struct of the bitmap manager source file. -/
structure BitmapManager where
  primary : List Nat
  secondary : List Nat
  hasSecondary : Bool
  deriving DecidableEq, Repr

namespace BitmapManager

/-- NewBitmapManager / Reset: all bits clear. -/
def fresh : BitmapManager :=
  { primary := List.replicate 8 0, secondary := List.replicate 8 0, hasSecondary := false }

/-- SetField: sets the bit for fieldNum (1-128); for fieldNum > 64 it also
sets the secondary indicator and primary bit 1. -/
def SetField (bm : BitmapManager) (fieldNum : Nat) : Except Err BitmapManager :=
  if fieldNum < 1 || fieldNum > 128 then .error .fieldNumOutOfRange
  else if fieldNum ≤ 64 then
    let byteIndex := (fieldNum - 1) / 8
    let bitIndex := 7 - ((fieldNum - 1) % 8)
    .ok { bm with primary := bm.primary.set byteIndex (bm.primary.getD byteIndex 0 ||| (1 <<< bitIndex)) }
  else
    let adjustedField := fieldNum - 64
    let byteIndex := (adjustedField - 1) / 8
    let bitIndex := 7 - ((adjustedField - 1) % 8)
    .ok { bm with
          hasSecondary := true
          primary := bm.primary.set 0 (bm.primary.getD 0 0 ||| 0x80)
          secondary := bm.secondary.set byteIndex (bm.secondary.getD byteIndex 0 ||| (1 <<< bitIndex)) }

/-- IsFieldSet: bit test; fields above 64 are only visible when the
secondary indicator is on. -/
def IsFieldSet (bm : BitmapManager) (fieldNum : Nat) : Bool :=
  if fieldNum < 1 || fieldNum > 128 then false
  else if fieldNum ≤ 64 then
    let byteIndex := (fieldNum - 1) / 8
    let bitIndex := 7 - ((fieldNum - 1) % 8)
    bm.primary.getD byteIndex 0 &&& (1 <<< bitIndex) ≠ 0
  else if !bm.hasSecondary then false
  else
    let adjustedField := fieldNum - 64
    let byteIndex := (adjustedField - 1) / 8
    let bitIndex := 7 - ((adjustedField - 1) % 8)
    bm.secondary.getD byteIndex 0 &&& (1 <<< bitIndex) ≠ 0

/-- ClearField: clears the bit; when clearing empties the secondary bitmap it
also drops the indicator and clears primary bit 1. -/
def ClearField (bm : BitmapManager) (fieldNum : Nat) : Except Err BitmapManager :=
  if fieldNum < 1 || fieldNum > 128 then .error .fieldNumOutOfRange
  else if fieldNum ≤ 64 then
    let byteIndex := (fieldNum - 1) / 8
    let bitIndex := 7 - ((fieldNum - 1) % 8)
    .ok { bm with primary := bm.primary.set byteIndex (bm.primary.getD byteIndex 0 &&& (255 ^^^ (1 <<< bitIndex))) }
  else if !bm.hasSecondary then .ok bm
  else
    let adjustedField := fieldNum - 64
    let byteIndex := (adjustedField - 1) / 8
    let bitIndex := 7 - ((adjustedField - 1) % 8)
    let secondary' := bm.secondary.set byteIndex (bm.secondary.getD byteIndex 0 &&& (255 ^^^ (1 <<< bitIndex)))
    if secondary'.all (· == 0) then
      .ok { primary := bm.primary.set 0 (bm.primary.getD 0 0 &&& (255 ^^^ 0x80))
            secondary := secondary'
            hasSecondary := false }
    else
      .ok { bm with secondary := secondary' }

/-- packBitmapBinary: primary bytes, then secondary bytes iff the indicator
is on; fails when the buffer capacity is below that total. -/
def packBitmapBinary (bm : BitmapManager) (bufLen : Nat) : Except Err (List Nat) :=
  let totalSize := 8 + (if bm.hasSecondary then 8 else 0)
  if bufLen < totalSize then .error .bufferTooSmall
  else if bm.hasSecondary then .ok (bm.primary ++ bm.secondary)
  else .ok bm.primary

/-- packBitmapHex: 16 uppercase hex characters for the primary, 16 more for
the secondary iff the indicator is on. -/
def packBitmapHex (bm : BitmapManager) (bufLen : Nat) : Except Err (List Nat) :=
  if bufLen < 16 then .error .bufferTooSmall
  else if bm.hasSecondary then
    if bufLen < 32 then .error .bufferTooSmall
    else .ok (encodeHexUpper bm.primary ++ encodeHexUpper bm.secondary)
  else .ok (encodeHexUpper bm.primary)

/-- Bitmap wire encodings. -/
inductive Encoding where
  | binary
  | hex
  deriving DecidableEq, Repr

/-- PackBitmap dispatch. -/
def PackBitmap (bm : BitmapManager) (bufLen : Nat) (encoding : Encoding) : Except Err (List Nat) :=
  match encoding with
  | .hex => packBitmapHex bm bufLen
  | .binary => packBitmapBinary bm bufLen

/-- unpackBitmapBinary: read 8 primary bytes; presence of the secondary block
is decided solely by bit 1 of the decoded primary; when absent the secondary
storage is zeroed.  Returns the new state and the bytes consumed. -/
def unpackBitmapBinary (_bm : BitmapManager) (data : List Nat) : Except Err (BitmapManager × Nat) :=
  if data.length < 8 then .error .invalidBitmap
  else
    let primary' := data.take 8
    let hasSec := primary'.getD 0 0 &&& 0x80 ≠ 0
    if hasSec then
      if data.length < 16 then .error .invalidBitmap
      else .ok ({ primary := primary', secondary := (data.drop 8).take 8, hasSecondary := true }, 16)
    else
      .ok ({ primary := primary', secondary := List.replicate 8 0, hasSecondary := false }, 8)

/-- unpackBitmapHex: read 16 hex characters (either case) for the primary,
16 more when decoded bit 1 is set; hex-malformed input is INVALID_BITMAP_HEX,
a missing block is INVALID_BITMAP; stale secondary storage is zeroed when no
secondary block follows. -/
def unpackBitmapHex (_bm : BitmapManager) (data : List Nat) : Except Err (BitmapManager × Nat) :=
  if data.length < 16 then .error .invalidBitmap
  else
    match decodeHex (data.take 16) with
    | none => .error .invalidBitmapHex
    | some primary' =>
      let hasSec := primary'.getD 0 0 &&& 0x80 ≠ 0
      if hasSec then
        if data.length < 32 then .error .invalidBitmap
        else
          match decodeHex ((data.drop 16).take 16) with
          | none => .error .invalidBitmapHex
          | some secondary' => .ok ({ primary := primary', secondary := secondary', hasSecondary := true }, 32)
      else
        .ok ({ primary := primary', secondary := List.replicate 8 0, hasSecondary := false }, 16)

/-- UnpackBitmap dispatch. -/
def UnpackBitmap (bm : BitmapManager) (data : List Nat) (encoding : Encoding) : Except Err (BitmapManager × Nat) :=
  match encoding with
  | .hex => unpackBitmapHex bm data
  | .binary => unpackBitmapBinary bm data

/-- One SetField/ClearField call, by field number. -/
inductive Op where
  | set (n : Nat)
  | clear (n : Nat)
  deriving DecidableEq, Repr

/-- Field number of an operation. -/
def Op.num : Op → Nat
  | .set n => n
  | .clear n => n

/-- Apply one operation; on an error return the Go receiver is left
unchanged. -/
def applyOp (bm : BitmapManager) : Op → BitmapManager
  | .set n =>
    match bm.SetField n with
    | .ok bm' => bm'
    | .error _ => bm
  | .clear n =>
    match bm.ClearField n with
    | .ok bm' => bm'
    | .error _ => bm

/-- Apply a call sequence to a fresh manager. -/
def applyOps (ops : List Op) : BitmapManager :=
  ops.foldl applyOp fresh

/-- Primary bit 1 (the MSB of byte 0, the DE 1 / secondary indicator). -/
def bit1 (bm : BitmapManager) : Bool := bm.primary.getD 0 0 &&& 0x80 ≠ 0

end BitmapManager

/-! ## The pooled Message implementation (header.go flavour) -/

/-- Data type tag of a field. -/
inductive FieldType where
  | ANS
  | AN
  | N
  | B
  | Z
  | Custom
  deriving DecidableEq, Repr

/-- Length kind of a field. -/
inductive LengthType where
  | Fixed
  | LLVAR
  | LLLVAR
  | LLLLVAR
  deriving DecidableEq, Repr

/-- Header kinds (only NONE versus non-NONE matters to Unpack/Pack). -/
inductive HeaderType where
  | hNone
  | hBinary
  | hASCII
  | hHex
  | hCustom
  deriving DecidableEq, Repr

namespace Pooled

/-- FieldConfig: the parts of the schema entry consulted by Unpack/Pack. -/
structure FieldConfig where
  fieldType : FieldType
  length : LengthType
  maxLength : Nat
  deriving DecidableEq, Repr

/-- CompiledPackager: field map plus the envelope choices consulted by the
message codec. -/
structure Packager where
  fieldConfigs : Nat → Option FieldConfig
  bitmapEncoding : BitmapManager.Encoding
  headerType : HeaderType
  headerLength : Nat

/-- A parsed message: the 4-byte MTI, the opaque header slice, the bitmap and
the fields.  A field entry of `some v` models data v with parsed = true;
`none` models an untouched field (field presence and parsed coincide for a
freshly unpacked message). -/
structure Message where
  mti : List Nat
  header : List Nat
  bitmap : BitmapManager
  fields : Nat → Option (List Nat)

/-- calculateFieldLength: fixed length from the config, or a 2/3/4 ASCII
decimal digit run; any non-digit or missing prefix byte is INVALID_LENGTH.
Returns the field data length and the offset just past the prefix. -/
def calculateFieldLength (config : FieldConfig) (data : List Nat) (offset : Nat) :
    Except Err (Nat × Nat) :=
  match config.length with
  | .Fixed => .ok (config.maxLength, offset)
  | .LLVAR =>
    if data.length < offset + 2 then .error .invalidLength
    else
      let d0 := data.getD offset 0
      let d1 := data.getD (offset + 1) 0
      if !isDigitByte d0 || !isDigitByte d1 then .error .invalidLength
      else .ok ((d0 - 48) * 10 + (d1 - 48), offset + 2)
  | .LLLVAR =>
    if data.length < offset + 3 then .error .invalidLength
    else
      let d0 := data.getD offset 0
      let d1 := data.getD (offset + 1) 0
      let d2 := data.getD (offset + 2) 0
      if !isDigitByte d0 || !isDigitByte d1 || !isDigitByte d2 then .error .invalidLength
      else .ok ((d0 - 48) * 100 + (d1 - 48) * 10 + (d2 - 48), offset + 3)
  | .LLLLVAR =>
    if data.length < offset + 4 then .error .invalidLength
    else
      let d0 := data.getD offset 0
      let d1 := data.getD (offset + 1) 0
      let d2 := data.getD (offset + 2) 0
      let d3 := data.getD (offset + 3) 0
      if !isDigitByte d0 || !isDigitByte d1 || !isDigitByte d2 || !isDigitByte d3 then
        .error .invalidLength
      else .ok ((d0 - 48) * 1000 + (d1 - 48) * 100 + (d2 - 48) * 10 + (d3 - 48), offset + 4)

/-- parseField: look up the schema, read the length, require that many value
bytes (INVALID_LENGTH otherwise), store the zero-copy slice and mark the
field present.  Returns the updated field table and the offset past the
field. -/
def parseField (pk : Packager) (fields : Nat → Option (List Nat)) (fieldNum : Nat)
    (data : List Nat) (offset : Nat) : Except Err ((Nat → Option (List Nat)) × Nat) :=
  match pk.fieldConfigs fieldNum with
  | none => .error .fieldNotConfigured
  | some config =>
    match calculateFieldLength config data offset with
    | .error e => .error e
    | .ok (fieldLength, newOffset) =>
      if data.length < newOffset + fieldLength then .error .invalidLength
      else
        .ok (fun m => if m = fieldNum then some ((data.drop newOffset).take fieldLength) else fields m,
             newOffset + fieldLength)

/-- The field loop of Unpack over the listed field numbers: fields whose
bitmap bit is clear are skipped; a parse error is wrapped with the field
number and aborts. -/
def unpackFieldsAux (pk : Packager) (bm : BitmapManager) (data : List Nat) :
    List Nat → (Nat → Option (List Nat)) → Nat → Except Err ((Nat → Option (List Nat)) × Nat)
  | [], fields, offset => .ok (fields, offset)
  | n :: ns, fields, offset =>
    if bm.IsFieldSet n then
      match parseField pk fields n data offset with
      | .error e => .error (.fieldError n e)
      | .ok (fields', offset') => unpackFieldsAux pk bm data ns fields' offset'
    else unpackFieldsAux pk bm data ns fields offset

/-- Field numbers 2..128, the iteration order of both Unpack and Pack. -/
def fieldRange : List Nat := List.range' 2 127

/-- Unpack continuation after the optional header slice: MTI, bitmap, then
the field loop.  Returns the message and the total offset consumed. -/
def unpackAfterHeader (pk : Packager) (data : List Nat) (offset : Nat) (hdr : List Nat) :
    Except Err (Message × Nat) :=
  if data.length < offset + 4 then .error .invalidMTI
  else
    match BitmapManager.UnpackBitmap BitmapManager.fresh (data.drop (offset + 4)) pk.bitmapEncoding with
    | .error e => .error e
    | .ok (bm, bitmapLen) =>
      match unpackFieldsAux pk bm data fieldRange (fun _ => none) (offset + 4 + bitmapLen) with
      | .error e => .error e
      | .ok (fields, offEnd) =>
        .ok ({ mti := (data.drop offset).take 4, header := hdr, bitmap := bm, fields := fields }, offEnd)

/-- Unpack on a fresh message (NewMessage().Unpack(data)): a 4-byte minimum,
then optional header, MTI, bitmap and fields.  Trailing bytes beyond the
last present field are not consumed and not inspected. -/
def Unpack (pk : Packager) (data : List Nat) : Except Err (Message × Nat) :=
  if data.length < 4 then .error .invalidMTI
  else if pk.headerType = HeaderType.hNone then unpackAfterHeader pk data 0 []
  else if data.length < pk.headerLength then .error .invalidHeader
  else unpackAfterHeader pk data pk.headerLength (data.take pk.headerLength)

/-- packField: emit the 2/3/4-digit ASCII decimal length prefix for variable
fields (no maximum-length check), or require an exact length match for FIXED
fields; then the stored bytes.  Capacity failures are BUFFER_TOO_SMALL. -/
def packField (pk : Packager) (fields : Nat → Option (List Nat)) (fieldNum : Nat)
    (bufLen : Nat) (offset : Nat) : Except Err (List Nat) :=
  match fields fieldNum with
  | none => .error .fieldNotFound
  | some fieldData =>
    match pk.fieldConfigs fieldNum with
    | none => .error .fieldNotConfigured
    | some config =>
      match config.length with
      | .LLVAR =>
        if bufLen < offset + 2 then .error .bufferTooSmall
        else if bufLen < offset + 2 + fieldData.length then .error .bufferTooSmall
        else .ok (writeIntToASCII fieldData.length 2 ++ fieldData)
      | .LLLVAR =>
        if bufLen < offset + 3 then .error .bufferTooSmall
        else if bufLen < offset + 3 + fieldData.length then .error .bufferTooSmall
        else .ok (writeIntToASCII fieldData.length 3 ++ fieldData)
      | .LLLLVAR =>
        if bufLen < offset + 4 then .error .bufferTooSmall
        else if bufLen < offset + 4 + fieldData.length then .error .bufferTooSmall
        else .ok (writeIntToASCII fieldData.length 4 ++ fieldData)
      | .Fixed =>
        if fieldData.length ≠ config.maxLength then .error .lengthMismatch
        else if bufLen < offset + fieldData.length then .error .bufferTooSmall
        else .ok fieldData

/-- The field loop of Pack: skip absent fields, wrap per-field errors with
the field number, concatenate the emitted segments. -/
def packFieldsAux (pk : Packager) (fields : Nat → Option (List Nat)) (bufLen : Nat) :
    List Nat → Nat → Except Err (List Nat)
  | [], _ => .ok []
  | n :: ns, offset =>
    if (fields n).isSome then
      match packField pk fields n bufLen offset with
      | .error e => .error (.fieldError n e)
      | .ok seg =>
        match packFieldsAux pk fields bufLen ns (offset + seg.length) with
        | .error e => .error e
        | .ok rest => .ok (seg ++ rest)
    else packFieldsAux pk fields bufLen ns offset

/-- Pack into a buffer of capacity bufLen: header bytes (when any), the
4-byte MTI, the bitmap in the configured encoding, then each present field
in ascending order. -/
def Pack (pk : Packager) (msg : Message) (bufLen : Nat) : Except Err (List Nat) :=
  if msg.header.length > 0 && bufLen < msg.header.length then .error .bufferTooSmall
  else
    let o1 := msg.header.length
    if bufLen < o1 + 4 then .error .bufferTooSmall
    else
      match BitmapManager.PackBitmap msg.bitmap (bufLen - (o1 + 4)) pk.bitmapEncoding with
      | .error e => .error e
      | .ok bitmapBytes =>
        match packFieldsAux pk msg.fields bufLen fieldRange (o1 + 4 + bitmapBytes.length) with
        | .error e => .error e
        | .ok fieldBytes => .ok (msg.header ++ msg.mti ++ bitmapBytes ++ fieldBytes)

end Pooled

/-! ## The map-based Message implementation (iso8583.go flavour) -/

namespace ISO

/-- FieldDefinition as consulted by the field-packing loop of Pack. -/
structure FieldDefinition where
  fieldType : FieldType
  lengthType : LengthType
  maxLength : Nat
  deriving DecidableEq, Repr

/-- Body of the per-field switch inside Message.Pack of iso8583.go: FIXED
fields are written into a window of exactly maxLength bytes (the data first,
the remainder filled with '0' for numeric fields and ' ' otherwise; data
longer than maxLength is cut off by the copy); variable fields get a 2/3
digit ASCII decimal prefix followed by the data.  Returns the bytes the loop
body appends at position pos of a buffer of capacity bufLen. -/
def packOneField (fieldDef : FieldDefinition) (fieldData : List Nat) (bufLen pos : Nat) :
    Except Err (List Nat) :=
  match fieldDef.lengthType with
  | .Fixed =>
    let fieldLen := fieldDef.maxLength
    if bufLen < pos + fieldLen then .error .bufferTooSmall
    else if fieldData.length < fieldLen then
      let padChar := if fieldDef.fieldType = FieldType.N then 48 else 32
      .ok (fieldData ++ List.replicate (fieldLen - fieldData.length) padChar)
    else .ok (fieldData.take fieldLen)
  | .LLVAR =>
    if bufLen < pos + 2 + fieldData.length then .error .bufferTooSmall
    else .ok (writeIntToASCII fieldData.length 2 ++ fieldData)
  | .LLLVAR =>
    if bufLen < pos + 3 + fieldData.length then .error .bufferTooSmall
    else .ok (writeIntToASCII fieldData.length 3 ++ fieldData)
  | .LLLLVAR => .error .unsupportedLengthType

end ISO

/-! ## The zero-allocation Message implementation (stack flavour) -/

namespace Stack

/-- LLVAR marker of the int16 field spec. -/
def specLLVAR : Int := -2

/-- LLLVAR marker of the int16 field spec. -/
def specLLLVAR : Int := -3

/-- parseDecimal2: exactly two ASCII digits, else INVALID_LENGTH. -/
def parseDecimal2 (b : List Nat) : Except Err Nat :=
  if b.length ≠ 2 || !isDigitByte (b.getD 0 0) || !isDigitByte (b.getD 1 0) then
    .error .invalidLength
  else .ok ((b.getD 0 0 - 48) * 10 + (b.getD 1 0 - 48))

/-- parseDecimal3: exactly three ASCII digits, else INVALID_LENGTH. -/
def parseDecimal3 (b : List Nat) : Except Err Nat :=
  if b.length ≠ 3 || !isDigitByte (b.getD 0 0) || !isDigitByte (b.getD 1 0)
      || !isDigitByte (b.getD 2 0) then
    .error .invalidLength
  else .ok ((b.getD 0 0 - 48) * 100 + (b.getD 1 0 - 48) * 10 + (b.getD 2 0 - 48))

/-- A stack Field is its stored bytes; the empty list is an empty field
(len = 0), which the message treats as not populated. -/
def fieldIsEmpty (field : List Nat) : Bool := field.isEmpty

/-- parseField of the stack implementation: positive spec is a fixed length,
specLLVAR/specLLLVAR read an ASCII decimal prefix; missing bytes are
INSUFFICIENT_DATA.  Field.Set is only called when the decoded length is
positive, so a zero-length variable field leaves the field untouched.
Returns the (possibly updated) field contents and the bytes consumed. -/
def parseField (field : List Nat) (spec : Int) (data : List Nat) :
    Except Err (List Nat × Nat) :=
  if spec > 0 then
    let requiredLen := spec.toNat
    if data.length < requiredLen then .error .insufficientData
    else .ok (data.take requiredLen, requiredLen)
  else if spec = specLLVAR then
    if data.length < 2 then .error .insufficientData
    else
      match parseDecimal2 (data.take 2) with
      | .error e => .error e
      | .ok length =>
        if data.length < 2 + length then .error .insufficientData
        else if length > 0 then .ok (((data.drop 2).take length), 2 + length)
        else .ok (field, 2 + length)
  else if spec = specLLLVAR then
    if data.length < 3 then .error .insufficientData
    else
      match parseDecimal3 (data.take 3) with
      | .error e => .error e
      | .ok length =>
        if data.length < 3 + length then .error .insufficientData
        else if length > 0 then .ok (((data.drop 3).take length), 3 + length)
        else .ok (field, 3 + length)
  else .error .invalidPackager

end Stack

/-! ## The EMV TLV parser (TLVParser.parseEMVTLV) -/

namespace TLVCodec

/-- A parsed TLV element: tag bytes, cached length, and value bytes. -/
structure TLVel where
  tag : List Nat
  length : Nat
  value : List Nat
  deriving DecidableEq, Repr

/-- The tag-continuation loop: advance while the current byte exists and has
its high bit set. -/
def skipTagBytes (data : List Nat) (offset : Nat) : Nat :=
  if h : offset < data.length then
    if data.getD offset 0 &&& 0x80 ≠ 0 then skipTagBytes data (offset + 1)
    else offset
  else offset
termination_by data.length - offset

/-- The length-reading step of parseEMVTLV: short form when the high bit of
the first length byte is clear; otherwise the low 7 bits give the count of
subsequent big-endian length bytes, which must be 1..4 and present.  Returns
the decoded length and the offset past the length bytes. -/
def emvReadLength (data : List Nat) (offset : Nat) : Except Err (Nat × Nat) :=
  if offset ≥ data.length then .error .invalidTLV
  else
    let lengthByte := data.getD offset 0
    if lengthByte &&& 0x80 = 0 then .ok (lengthByte, offset + 1)
    else
      let numLengthBytes := lengthByte &&& 0x7F
      if numLengthBytes = 0 || numLengthBytes > 4 then .error .invalidTLV
      else if offset + 1 + numLengthBytes > data.length then .error .invalidTLV
      else
        .ok (((data.drop (offset + 1)).take numLengthBytes).foldl (fun l b => (l <<< 8) ||| b) 0,
             offset + 1 + numLengthBytes)

/-- Continuation of one element parse once the tag bytes span
[tagStart, offset): read the length, then slice the value. -/
def parseEMVAfterTag (data : List Nat) (tagStart offset : Nat) : Except Err (TLVel × Nat) :=
  if offset > data.length then .error .invalidTLV
  else
    let tag := (data.drop tagStart).take (offset - tagStart)
    match emvReadLength data offset with
    | .error e => .error e
    | .ok (length, offset') =>
      if offset' + length > data.length then .error .invalidTLV
      else .ok ({ tag := tag, length := length, value := (data.drop offset').take length },
                offset' + length)

/-- Parse one EMV element starting at offset (offset < data.length): a
multi-byte tag when the low five bits of the first byte are all ones, then
length and value. -/
def parseEMVElement (data : List Nat) (offset : Nat) : Except Err (TLVel × Nat) :=
  let firstByte := data.getD offset 0
  if firstByte &&& 0x1F = 0x1F then
    let cont := skipTagBytes data (offset + 1)
    if cont ≥ data.length then .error .invalidTLV
    else parseEMVAfterTag data offset (cont + 1)
  else parseEMVAfterTag data offset (offset + 1)

/-- The tag-continuation loop never moves backwards. -/
theorem skipTagBytes_ge (data : List Nat) (o : Nat) : o ≤ skipTagBytes data o := by
  rw [skipTagBytes]
  by_cases h : o < data.length
  · rw [dif_pos h]
    by_cases hb : data.getD o 0 &&& 0x80 ≠ 0
    · rw [if_pos hb]
      have ih := skipTagBytes_ge data (o + 1)
      omega
    · rw [if_neg hb]
  · rw [dif_neg h]
termination_by data.length - o
decreasing_by omega

/-- A successful length read moves past at least the first length byte and
stays inside the buffer. -/
theorem emvReadLength_progress (data : List Nat) (o L o' : Nat)
    (h : emvReadLength data o = .ok (L, o')) : o < o' ∧ o' ≤ data.length := by
  simp only [emvReadLength] at h
  split at h
  · exact absurd h (by simp)
  · split at h
    · rename_i hlen hshort
      obtain ⟨rfl, rfl⟩ : L = data.getD o 0 ∧ o' = o + 1 := by
        have := h
        simp only [Except.ok.injEq, Prod.mk.injEq] at this
        exact ⟨this.1.symm, this.2.symm⟩
      omega
    · split at h
      · exact absurd h (by simp)
      · split at h
        · exact absurd h (by simp)
        · rename_i hlen hshort hn htrunc
          simp only [Except.ok.injEq, Prod.mk.injEq] at h
          omega

/-- A successful after-tag parse moves past the length bytes and the value
and stays inside the buffer. -/
theorem parseEMVAfterTag_progress (data : List Nat) (ts o : Nat) (el : TLVel) (off' : Nat)
    (h : parseEMVAfterTag data ts o = .ok (el, off')) : o < off' ∧ off' ≤ data.length := by
  unfold parseEMVAfterTag at h
  split at h
  · exact absurd h (by simp)
  · split at h
    · exact absurd h (by simp)
    · rename_i heq
      split at h
      · exact absurd h (by simp)
      · rename_i length offset' hval
        simp only [Except.ok.injEq, Prod.mk.injEq] at h
        have := emvReadLength_progress data o length offset' heq
        omega

/-- Every successful element parse makes strict progress and stays inside
the buffer. -/
theorem parseEMVElement_progress (data : List Nat) (offset : Nat) (el : TLVel) (off' : Nat)
    (h : parseEMVElement data offset = .ok (el, off')) : offset < off' ∧ off' ≤ data.length := by
  simp only [parseEMVElement] at h
  split at h
  · split at h
    · exact absurd h (by simp)
    · have hc := skipTagBytes_ge data (offset + 1)
      have := parseEMVAfterTag_progress data offset (skipTagBytes data (offset + 1) + 1) el off' h
      omega
  · have := parseEMVAfterTag_progress data offset (offset + 1) el off' h
    omega

/-- The element loop of parseEMVTLV: parse elements until the offset reaches
the end of the buffer, appending to the accumulator. -/
def parseEMVTLVAux (data : List Nat) (offset : Nat) (acc : List TLVel) : Except Err (List TLVel) :=
  if hlt : offset < data.length then
    match hpe : parseEMVElement data offset with
    | .error e => .error e
    | .ok (el, off') => parseEMVTLVAux data off' (acc ++ [el])
  else .ok acc
termination_by data.length - offset
decreasing_by
  have := parseEMVElement_progress data offset el off' hpe
  omega

/-- parseEMVTLV: parse a whole buffer of EMV BER-TLV elements. -/
def parseEMVTLV (data : List Nat) : Except Err (List TLVel) :=
  parseEMVTLVAux data 0 []

end TLVCodec

/-! ## The free ParseTLV function (package-level, tlv.go) -/

/-- The tag scan of ParseTLV: 1-3 tag bytes by the BER rules (a first byte
with all five low bits set starts a multi-byte tag, a continuation byte with
the high bit set extends it once more); a missing byte is INSUFFICIENT_DATA.
Returns the position just past the tag. -/
def tlvReadTag (buf : List Nat) (tagStart : Nat) : Except Err Nat :=
  if buf.getD tagStart 0 &&& 0x1F = 0x1F then
    if tagStart + 1 ≥ buf.length then .error .insufficientData
    else if buf.getD (tagStart + 1) 0 &&& 0x80 ≠ 0 then
      if tagStart + 2 ≥ buf.length then .error .insufficientData
      else .ok (tagStart + 3)
    else .ok (tagStart + 2)
  else .ok (tagStart + 1)

/-- The BER length read of ParseTLV: unlike the EMV parser above it puts no
constraint on the count numBytes = L0 &&& 0x7F (zero yields length 0), and a
missing byte is INSUFFICIENT_DATA.  (A count of 8 or more can overflow the
Go int and crash the Go code at the value check; the model keeps the
mathematical value, which that check then rejects.) -/
def tlvReadLength (buf : List Nat) (pos : Nat) : Except Err (Nat × Nat) :=
  if pos ≥ buf.length then .error .insufficientData
  else
    let length := buf.getD pos 0
    if length &&& 0x80 ≠ 0 then
      let numBytes := length &&& 0x7F
      if pos + 1 + numBytes > buf.length then .error .insufficientData
      else
        .ok (((buf.drop (pos + 1)).take numBytes).foldl (fun l b => (l <<< 8) ||| b) 0,
             pos + 1 + numBytes)
    else .ok (length, pos + 1)

/-- A successful tag scan moves forward. -/
theorem tlvReadTag_progress (buf : List Nat) (t p : Nat)
    (h : tlvReadTag buf t = .ok p) : t + 1 ≤ p := by
  simp only [tlvReadTag] at h
  repeat' split at h
  all_goals cases h
  all_goals omega

/-- A successful length read moves past the first length byte and stays
inside the buffer. -/
theorem tlvReadLength_progress (buf : List Nat) (p len q : Nat)
    (h : tlvReadLength buf p = .ok (len, q)) : p + 1 ≤ q ∧ q ≤ buf.length := by
  simp only [tlvReadLength] at h
  repeat' split at h
  all_goals cases h
  all_goals omega

/-- The only error the tag scan produces is INSUFFICIENT_DATA. -/
theorem tlvReadTag_error (buf : List Nat) (t : Nat) (e : Err)
    (h : tlvReadTag buf t = .error e) : e = Err.insufficientData := by
  simp only [tlvReadTag] at h
  repeat' split at h
  all_goals cases h
  all_goals rfl

/-- The only error the length read produces is INSUFFICIENT_DATA. -/
theorem tlvReadLength_error (buf : List Nat) (p : Nat) (e : Err)
    (h : tlvReadLength buf p = .error e) : e = Err.insufficientData := by
  simp only [tlvReadLength] at h
  repeat' split at h
  all_goals cases h
  all_goals rfl

/-- The long length form of ParseTLV succeeds for every count
numBytes = L0 &&& 0x7F — including 0 and counts above 4 — as long as that
many bytes remain. -/
theorem tlvReadLength_longOk (buf : List Nat) (p : Nat) (hlt : p < buf.length)
    (hbit : buf.getD p 0 &&& 0x80 ≠ 0)
    (hrem : p + 1 + (buf.getD p 0 &&& 0x7F) ≤ buf.length) :
    tlvReadLength buf p =
      .ok (((buf.drop (p + 1)).take (buf.getD p 0 &&& 0x7F)).foldl
             (fun l b => (l <<< 8) ||| b) 0,
           p + 1 + (buf.getD p 0 &&& 0x7F)) := by
  simp only [tlvReadLength]
  rw [if_neg (by omega), if_pos hbit, if_neg (by omega)]

/-- A truncated long length form of ParseTLV fails with INSUFFICIENT_DATA,
not INVALID_TLV. -/
theorem tlvReadLength_truncated (buf : List Nat) (p : Nat) (hlt : p < buf.length)
    (hbit : buf.getD p 0 &&& 0x80 ≠ 0)
    (hrem : buf.length < p + 1 + (buf.getD p 0 &&& 0x7F)) :
    tlvReadLength buf p = .error Err.insufficientData := by
  simp only [tlvReadLength]
  rw [if_neg (by omega), if_pos hbit, if_pos (by omega)]

/-- One loop iteration of ParseTLV: tag, BER length, then the value slice;
any missing bytes are INSUFFICIENT_DATA.  Returns the (tag bytes, value
bytes) pair and the position past the element. -/
def parseTLVStep (buf : List Nat) (pos : Nat) :
    Except Err ((List Nat × List Nat) × Nat) :=
  match tlvReadTag buf pos with
  | .error e => .error e
  | .ok tagEnd =>
    match tlvReadLength buf tagEnd with
    | .error e => .error e
    | .ok (len, vpos) =>
      if vpos + len > buf.length then .error .insufficientData
      else .ok (((buf.drop pos).take (tagEnd - pos), (buf.drop vpos).take len), vpos + len)

/-- A successful ParseTLV iteration makes strict progress. -/
theorem parseTLVStep_progress (buf : List Nat) (pos : Nat) (el : List Nat × List Nat)
    (pos2 : Nat) (h : parseTLVStep buf pos = .ok (el, pos2)) : pos < pos2 := by
  simp only [parseTLVStep] at h
  split at h
  · cases h
  · rename_i tagEnd htag
    split at h
    · cases h
    · rename_i len vpos hlen
      split at h
      · cases h
      · have h1 := tlvReadTag_progress buf pos tagEnd htag
        have h2 := tlvReadLength_progress buf tagEnd len vpos hlen
        simp only [Except.ok.injEq, Prod.mk.injEq] at h
        omega

/-- The only error a ParseTLV iteration produces is INSUFFICIENT_DATA. -/
theorem parseTLVStep_error (buf : List Nat) (pos : Nat) (e : Err)
    (h : parseTLVStep buf pos = .error e) : e = Err.insufficientData := by
  simp only [parseTLVStep] at h
  split at h
  · rename_i e1 htag
    injection h with h1
    subst h1
    exact tlvReadTag_error buf pos e1 htag
  · rename_i tagEnd htag
    split at h
    · rename_i e1 hlen
      injection h with h1
      subst h1
      exact tlvReadLength_error buf tagEnd e1 hlen
    · split at h
      · injection h with h1
        exact h1.symm
      · cases h

/-- The element loop of ParseTLV: parse elements until the position reaches
the end of the buffer, appending (tag, value) pairs to the accumulator. -/
def parseTLVAux (buf : List Nat) (pos : Nat) (acc : List (List Nat × List Nat)) :
    Except Err (List (List Nat × List Nat)) :=
  if hlt : pos < buf.length then
    match hstep : parseTLVStep buf pos with
    | .error e => .error e
    | .ok (el, pos2) => parseTLVAux buf pos2 (acc ++ [el])
  else .ok acc
termination_by buf.length - pos
decreasing_by
  have := parseTLVStep_progress buf pos el pos2 hstep
  omega

/-- ParseTLV: parse a whole buffer of BER-TLV elements into (tag, value)
pairs. -/
def ParseTLV (buf : List Nat) : Except Err (List (List Nat × List Nat)) :=
  parseTLVAux buf 0 []

/-- Loop unfolding on a successful iteration. -/
theorem parseTLVAux_step (buf : List Nat) (pos : Nat) (acc : List (List Nat × List Nat))
    (el : List Nat × List Nat) (pos2 : Nat) (hlt : pos < buf.length)
    (h : parseTLVStep buf pos = .ok (el, pos2)) :
    parseTLVAux buf pos acc = parseTLVAux buf pos2 (acc ++ [el]) := by
  rw [parseTLVAux, dif_pos hlt]
  split
  · rename_i heq
    rw [h] at heq
    cases heq
  · rename_i el2 pos3 heq
    rw [h] at heq
    injection heq with h1
    injection h1 with h2 h3
    rw [h2, h3]

/-- Loop unfolding on a failing iteration. -/
theorem parseTLVAux_err (buf : List Nat) (pos : Nat) (acc : List (List Nat × List Nat))
    (e : Err) (hlt : pos < buf.length) (h : parseTLVStep buf pos = .error e) :
    parseTLVAux buf pos acc = .error e := by
  rw [parseTLVAux, dif_pos hlt]
  split
  · rename_i heq
    rw [h] at heq
    injection heq with h1
    rw [h1]
  · rename_i el2 pos3 heq
    rw [h] at heq
    cases heq

/-- Loop unfolding at the end of the buffer. -/
theorem parseTLVAux_end (buf : List Nat) (pos : Nat) (acc : List (List Nat × List Nat))
    (h : ¬ pos < buf.length) : parseTLVAux buf pos acc = .ok acc := by
  rw [parseTLVAux, dif_neg h]

/-- Bounded unfolding of the ParseTLV loop: every error it can produce is
INSUFFICIENT_DATA. -/
theorem parseTLVAux_error (buf : List Nat) (k : Nat) :
    ∀ (pos : Nat) (acc : List (List Nat × List Nat)) (e : Err),
      buf.length - pos ≤ k → parseTLVAux buf pos acc = .error e →
      e = Err.insufficientData := by
  induction k with
  | zero =>
    intro pos acc e hk h
    rw [parseTLVAux, dif_neg (by omega)] at h
    cases h
  | succ k ih =>
    intro pos acc e hk h
    rw [parseTLVAux] at h
    split at h
    · rename_i hlt
      split at h
      · rename_i e1 hstep
        cases h
        exact parseTLVStep_error buf pos _ hstep
      · rename_i el pos2 hstep
        have := parseTLVStep_progress buf pos el pos2 hstep
        exact ih pos2 _ e (by omega) h
    · cases h

/-- ParseTLV never reports INVALID_TLV: its only error is
INSUFFICIENT_DATA. -/
theorem parseTLV_never_invalid (buf : List Nat) (e : Err)
    (h : ParseTLV buf = .error e) : e = Err.insufficientData :=
  parseTLVAux_error buf buf.length 0 [] e (by omega) h

/-! ## General helper lemmas -/

/-- Shift-or composition of a big-endian byte is plain base-256 arithmetic
when the byte is in range. -/
theorem shiftOr_eq_mulAdd (a b : Nat) (hb : b < 256) : (a <<< 8) ||| b = a * 256 + b := by
  have h1 : a <<< 8 = a * 256 := by rw [Nat.shiftLeft_eq]
  have hb8 : b < 2 ^ 8 := by
    have hp : (2 : Nat) ^ 8 = 256 := by norm_num
    omega
  have h2 : (2 ^ 8) * a + b = (2 ^ 8) * a ||| b :=
    Nat.mul_add_lt_is_or hb8 a
  rw [h1, Nat.mul_comm]
  have h256 : (256 : Nat) = 2 ^ 8 := by norm_num
  rw [h256]
  exact h2.symm

/-- The big-endian accumulator of parseEMVTLV agrees with base-256 digits
whenever all bytes are in range. -/
theorem foldBE_eq (bs : List Nat) : ∀ a, (∀ b ∈ bs, b < 256) →
    bs.foldl (fun l b => (l <<< 8) ||| b) a = bs.foldl (fun x b => x * 256 + b) a := by
  induction bs with
  | nil => intro a _; rfl
  | cons b rest ih =>
    intro a hall
    have hb : b < 256 := hall b (List.mem_cons_self b rest)
    simp only [List.foldl_cons]
    rw [shiftOr_eq_mulAdd a b hb]
    exact ih (a * 256 + b) (fun x hx => hall x (List.mem_cons_of_mem b hx))

/-! ## EMV TLV length-decoding lemmas (claim C5) -/

namespace TLVCodec

/-- Reading a length at or past the end of the buffer is INVALID_TLV. -/
theorem emvReadLength_oob (data : List Nat) (o : Nat) (h : data.length ≤ o) :
    emvReadLength data o = .error .invalidTLV := by
  simp only [emvReadLength]
  rw [if_pos]
  omega

/-- Short form: high bit of the first length byte clear. -/
theorem emvReadLength_short (data : List Nat) (o : Nat) (hlt : o < data.length)
    (hshort : data.getD o 0 &&& 0x80 = 0) :
    emvReadLength data o = .ok (data.getD o 0, o + 1) := by
  simp only [emvReadLength]
  split
  · omega
  · rfl

/-- Long form with a byte count of 0 or above 4 is INVALID_TLV. -/
theorem emvReadLength_badCount (data : List Nat) (o : Nat) (hlt : o < data.length)
    (hlong : data.getD o 0 &&& 0x80 ≠ 0)
    (hn : data.getD o 0 &&& 0x7F = 0 ∨ 4 < data.getD o 0 &&& 0x7F) :
    emvReadLength data o = .error .invalidTLV := by
  simp only [List.getD_eq_getElem?_getD] at hlong hn
  simp only [emvReadLength, List.getD_eq_getElem?_getD]
  repeat' split
  all_goals first
    | rfl
    | omega
    | (rename_i hc; (try simp only [List.getD_eq_getElem?_getD] at hc); exact absurd hc hlong)
    | (rename_i hcn hctr; simp only [Bool.or_eq_true, decide_eq_true_eq, not_or] at hcn;
       rcases hn with hn | hn <;> omega)

/-- Long form whose announced length bytes run past the buffer is
INVALID_TLV. -/
theorem emvReadLength_truncated (data : List Nat) (o : Nat) (hlt : o < data.length)
    (hlong : data.getD o 0 &&& 0x80 ≠ 0)
    (hn1 : 1 ≤ data.getD o 0 &&& 0x7F) (hn4 : data.getD o 0 &&& 0x7F ≤ 4)
    (htr : data.length < o + 1 + (data.getD o 0 &&& 0x7F)) :
    emvReadLength data o = .error .invalidTLV := by
  simp only [List.getD_eq_getElem?_getD] at hlong hn1 hn4 htr
  simp only [emvReadLength, List.getD_eq_getElem?_getD]
  repeat' split
  all_goals first
    | rfl
    | omega
    | (rename_i hc; (try simp only [List.getD_eq_getElem?_getD] at hc); exact absurd hc hlong)

/-- Long form with 1..4 available length bytes decodes them as a big-endian
base-256 integer. -/
theorem emvReadLength_longOk (data : List Nat) (o : Nat) (hlt : o < data.length)
    (hlong : data.getD o 0 &&& 0x80 ≠ 0)
    (hn1 : 1 ≤ data.getD o 0 &&& 0x7F) (hn4 : data.getD o 0 &&& 0x7F ≤ 4)
    (htr : o + 1 + (data.getD o 0 &&& 0x7F) ≤ data.length)
    (hbytes : ∀ b ∈ (data.drop (o + 1)).take (data.getD o 0 &&& 0x7F), b < 256) :
    emvReadLength data o =
      .ok (((data.drop (o + 1)).take (data.getD o 0 &&& 0x7F)).foldl (fun x b => x * 256 + b) 0,
           o + 1 + (data.getD o 0 &&& 0x7F)) := by
  have hfold := foldBE_eq ((data.drop (o + 1)).take (data.getD o 0 &&& 0x7F)) 0 hbytes
  simp only [List.getD_eq_getElem?_getD] at hlong hn1 hn4 htr hfold
  simp only [emvReadLength, List.getD_eq_getElem?_getD]
  repeat' split
  all_goals first
    | omega
    | (rename_i hc; (try simp only [List.getD_eq_getElem?_getD] at hc); exact absurd hc hlong)
    | (rename_i hcn; simp only [Bool.or_eq_true, decide_eq_true_eq] at hcn;
       rcases hcn with hcn | hcn <;> omega)
    | (rw [hfold])

/-- A multi-byte tag whose continuation runs to the end of the buffer is
INVALID_TLV. -/
theorem parseEMVElement_truncTag (data : List Nat) (o : Nat) (hlt : o < data.length)
    (htag : data.getD o 0 &&& 0x1F = 0x1F)
    (hrun : data.length ≤ skipTagBytes data (o + 1)) :
    parseEMVElement data o = .error .invalidTLV := by
  simp only [List.getD_eq_getElem?_getD] at htag
  simp only [parseEMVElement, List.getD_eq_getElem?_getD]
  repeat' split
  all_goals first
    | rfl
    | omega
    | (rename_i hc; (try simp only [List.getD_eq_getElem?_getD] at hc); exact absurd htag hc)

/-- A value running past the buffer end fails the element parse with
INVALID_TLV. -/
theorem parseEMVAfterTag_truncValue (data : List Nat) (ts o L o2 : Nat)
    (hle : o ≤ data.length) (hread : emvReadLength data o = .ok (L, o2))
    (hover : data.length < o2 + L) :
    parseEMVAfterTag data ts o = .error .invalidTLV := by
  simp only [parseEMVAfterTag]
  rw [if_neg (by omega), hread]
  dsimp only
  rw [if_pos (by omega)]

/-- An element parse failure aborts the whole TLV parse with the same
error. -/
theorem parseEMVTLVAux_elemError (data : List Nat) (o : Nat) (acc : List TLVel) (e : Err)
    (hlt : o < data.length) (herr : parseEMVElement data o = .error e) :
    parseEMVTLVAux data o acc = .error e := by
  rw [parseEMVTLVAux]
  rw [dif_pos hlt]
  split
  · rename_i heq
    rw [herr] at heq
    injection heq with h1
    rw [h1]
  · rename_i heq
    rw [herr] at heq
    cases heq

end TLVCodec

/-- Refutation of C5 as stated for the cited free function ParseTLV: it
accepts a zero count of length bytes ([0x5A, 0x80] parses as one element
with an empty value) and a count of five ([0x5A, 0x85, 0, 0, 0, 0, 1, 0x41]
parses as tag 5A with value 41), and a truncated length or value fails with
INSUFFICIENT_DATA, never with the INVALID_TLV the claim demands. -/
theorem C5_counterexample :
    ParseTLV [0x5A, 0x80] = .ok [([0x5A], [])] ∧
    ParseTLV [0x5A, 0x85, 0, 0, 0, 0, 1, 0x41] = .ok [([0x5A], [0x41])] ∧
    ParseTLV [0x5A] = .error Err.insufficientData ∧
    ParseTLV [0x5A, 0x02, 0x41] = .error Err.insufficientData := by
  refine ⟨?_, ?_, ?_, ?_⟩
  · rw [ParseTLV,
      parseTLVAux_step [0x5A, 0x80] 0 [] ([0x5A], []) 2 (by norm_num) rfl,
      parseTLVAux_end [0x5A, 0x80] 2 _ (by norm_num)]
    rfl
  · rw [ParseTLV,
      parseTLVAux_step [0x5A, 0x85, 0, 0, 0, 0, 1, 0x41] 0 [] ([0x5A], [0x41]) 8
        (by norm_num) rfl,
      parseTLVAux_end [0x5A, 0x85, 0, 0, 0, 0, 1, 0x41] 8 _ (by norm_num)]
    rfl
  · rw [ParseTLV, parseTLVAux_err [0x5A] 0 [] Err.insufficientData (by norm_num) rfl]
  · rw [ParseTLV,
      parseTLVAux_err [0x5A, 0x02, 0x41] 0 [] Err.insufficientData (by norm_num) rfl]

/-- C5 (amended): the method TLVParser.parseEMVTLV reads lengths exactly as
claimed — a first length byte L0 with the high bit clear yields length L0
(at most 127 for byte values); otherwise n = L0 &&& 0x7F must satisfy
1 ≤ n ≤ 4 and the length is the big-endian base-256 value of the n
following bytes; any other n, and any truncation of the tag, length, or
value, fails with the INVALID_TLV error, which aborts the whole parse.  The
free function ParseTLV does not: it accepts every count n = L0 &&& 0x7F
(zero yields length 0 and counts above 4 are read in full), and every
truncation — tag, length, or value — is INSUFFICIENT_DATA; it never
reports INVALID_TLV. -/
theorem C5_tlv_length_parsing :
    (∀ (data : List Nat) (o : Nat), data.length ≤ o →
       TLVCodec.emvReadLength data o = .error .invalidTLV) ∧
    (∀ (data : List Nat) (o : Nat), o < data.length → data.getD o 0 &&& 0x80 = 0 →
       TLVCodec.emvReadLength data o = .ok (data.getD o 0, o + 1) ∧
         (data.getD o 0 < 256 → data.getD o 0 ≤ 127)) ∧
    (∀ (data : List Nat) (o : Nat), o < data.length → data.getD o 0 &&& 0x80 ≠ 0 →
       (data.getD o 0 &&& 0x7F = 0 ∨ 4 < data.getD o 0 &&& 0x7F) →
       TLVCodec.emvReadLength data o = .error .invalidTLV) ∧
    (∀ (data : List Nat) (o : Nat), o < data.length → data.getD o 0 &&& 0x80 ≠ 0 →
       1 ≤ data.getD o 0 &&& 0x7F → data.getD o 0 &&& 0x7F ≤ 4 →
       data.length < o + 1 + (data.getD o 0 &&& 0x7F) →
       TLVCodec.emvReadLength data o = .error .invalidTLV) ∧
    (∀ (data : List Nat) (o : Nat), o < data.length → data.getD o 0 &&& 0x80 ≠ 0 →
       1 ≤ data.getD o 0 &&& 0x7F → data.getD o 0 &&& 0x7F ≤ 4 →
       o + 1 + (data.getD o 0 &&& 0x7F) ≤ data.length →
       (∀ b ∈ (data.drop (o + 1)).take (data.getD o 0 &&& 0x7F), b < 256) →
       TLVCodec.emvReadLength data o =
         .ok (((data.drop (o + 1)).take (data.getD o 0 &&& 0x7F)).foldl (fun x b => x * 256 + b) 0,
              o + 1 + (data.getD o 0 &&& 0x7F))) ∧
    (∀ (data : List Nat) (o : Nat), o < data.length → data.getD o 0 &&& 0x1F = 0x1F →
       data.length ≤ TLVCodec.skipTagBytes data (o + 1) →
       TLVCodec.parseEMVElement data o = .error .invalidTLV) ∧
    (∀ (data : List Nat) (ts o L o2 : Nat), o ≤ data.length →
       TLVCodec.emvReadLength data o = .ok (L, o2) → data.length < o2 + L →
       TLVCodec.parseEMVAfterTag data ts o = .error .invalidTLV) ∧
    (∀ (data : List Nat) (o : Nat) (acc : List TLVCodec.TLVel) (e : Err),
       o < data.length → TLVCodec.parseEMVElement data o = .error e →
       TLVCodec.parseEMVTLVAux data o acc = .error e) ∧
    (∀ (buf : List Nat) (p : Nat), p < buf.length → buf.getD p 0 &&& 0x80 ≠ 0 →
       p + 1 + (buf.getD p 0 &&& 0x7F) ≤ buf.length →
       tlvReadLength buf p =
         .ok (((buf.drop (p + 1)).take (buf.getD p 0 &&& 0x7F)).foldl
                (fun l b => (l <<< 8) ||| b) 0,
              p + 1 + (buf.getD p 0 &&& 0x7F))) ∧
    (∀ (buf : List Nat) (p : Nat), p < buf.length → buf.getD p 0 &&& 0x80 ≠ 0 →
       buf.length < p + 1 + (buf.getD p 0 &&& 0x7F) →
       tlvReadLength buf p = .error Err.insufficientData) ∧
    (∀ (buf : List Nat) (e : Err), ParseTLV buf = .error e →
       e = Err.insufficientData) := by
  refine ⟨TLVCodec.emvReadLength_oob, ?_, TLVCodec.emvReadLength_badCount,
    TLVCodec.emvReadLength_truncated, TLVCodec.emvReadLength_longOk,
    TLVCodec.parseEMVElement_truncTag, TLVCodec.parseEMVAfterTag_truncValue,
    TLVCodec.parseEMVTLVAux_elemError,
    tlvReadLength_longOk, tlvReadLength_truncated, parseTLV_never_invalid⟩
  intro data o hlt hshort
  refine ⟨TLVCodec.emvReadLength_short data o hlt hshort, ?_⟩
  intro hbyte
  have hsmall : ∀ c < 256, c &&& 0x80 = 0 → c ≤ 127 := by decide
  exact hsmall (data.getD o 0) hbyte hshort

/-- Concrete check of the amended C5: the EMV method parser on the
long-form 0x82 0x01 0xF4 = 500, a count of 3 with too few bytes, and a
count of 5; the free ParseTLV length read on a zero count, a count of 5,
and a truncated count of 5. -/
theorem C5_tlv_length_parsing_witness :
    TLVCodec.emvReadLength [0x82, 0x01, 0xF4] 0 = .ok (500, 3) ∧
    TLVCodec.emvReadLength [0x83, 0x01, 0xF4] 0 = .error .invalidTLV ∧
    TLVCodec.emvReadLength [0x85, 0x01] 0 = .error .invalidTLV ∧
    tlvReadLength [0x80] 0 = .ok (0, 1) ∧
    tlvReadLength [0x85, 0, 0, 0, 0, 1] 0 = .ok (1, 6) ∧
    tlvReadLength [0x85, 0x01] 0 = .error Err.insufficientData := by
  obtain ⟨h1, h2, h3, h4, h5, h6, h7, h8, h9, h10, h11⟩ := C5_tlv_length_parsing
  refine ⟨?_, ?_, ?_, ?_, ?_, ?_⟩
  · have := h5 [0x82, 0x01, 0xF4] 0 (by decide) (by decide) (by decide) (by decide)
      (by decide) (by decide)
    exact this.trans rfl
  · exact h4 [0x83, 0x01, 0xF4] 0 (by decide) (by decide) (by decide) (by decide) (by decide)
  · exact h3 [0x85, 0x01] 0 (by decide) (by decide) (by decide)
  · have := h9 [0x80] 0 (by decide) (by decide) (by decide)
    exact this.trans rfl
  · have := h9 [0x85, 0, 0, 0, 0, 1] 0 (by decide) (by decide) (by decide)
    exact this.trans rfl
  · exact h10 [0x85, 0x01] 0 (by decide) (by decide) (by decide)

/-! ## Bitmap manager invariants (claims C2, C9, C10, C7) -/

/-- getD after set at the same (in-range) index. -/
theorem getD_set_self (l : List Nat) (i v : Nat) (h : i < l.length) :
    (l.set i v).getD i 0 = v := by
  simp [List.getD_eq_getElem?_getD, List.getElem?_eq_getElem, h]

/-- getD after set at a different index. -/
theorem getD_set_ne (l : List Nat) (i j v : Nat) (h : i ≠ j) :
    (l.set i v).getD j 0 = l.getD j 0 := by
  by_cases hj : j < l.length
  · have hj' : j < (l.set i v).length := by simpa using hj
    simp [List.getD_eq_getElem?_getD, List.getElem?_eq_getElem, hj, hj',
      List.getElem_set_ne h]
  · have h1 : l[j]? = none := by
      rw [List.getElem?_eq_none_iff]
      omega
    have h2 : (l.set i v)[j]? = none := by
      rw [List.getElem?_eq_none_iff]
      simpa using Nat.le_of_not_lt hj
    simp [List.getD_eq_getElem?_getD, h1, h2]

/-- Setting a bit below bit position 7 keeps a byte in range, makes the bit
visible, and leaves the MSB alone. -/
theorem byte_setBit_facts : ∀ b < 256, ∀ i < 8,
    (b ||| (1 <<< i)) < 256 ∧ (b ||| (1 <<< i)) &&& (1 <<< i) ≠ 0 ∧
      (i < 7 → (b ||| (1 <<< i)) &&& 128 = b &&& 128) := by decide

/-- Clearing a bit below bit position 7 keeps a byte in range and leaves the
MSB alone; the cleared bit reads as zero. -/
theorem byte_clearBit_facts : ∀ b < 256, ∀ i < 8,
    (b &&& (255 ^^^ (1 <<< i))) < 256 ∧
      (i < 7 → (b &&& (255 ^^^ (1 <<< i))) &&& 128 = b &&& 128) := by decide

/-- A byte is nonzero exactly when one of its eight MSB-first bits is set. -/
theorem byte_nonzero_iff : ∀ b < 256, (b ≠ 0 ↔ ∃ i < 8, b &&& (1 <<< (7 - i)) ≠ 0) := by decide

/-- Setting the MSB of a byte sets it. -/
theorem byte_setMSB : ∀ b < 256, (b ||| 128) &&& 128 ≠ 0 ∧ (b ||| 128) < 256 := by decide

/-- Clearing the MSB of a byte clears it. -/
theorem byte_clearMSB : ∀ b < 256, (b &&& (255 ^^^ 128)) &&& 128 = 0 ∧
    (b &&& (255 ^^^ 128)) < 256 := by decide

namespace BitmapManager

/-- Well-formedness of a bitmap manager: 8 in-range bytes per block, the
secondary indicator tracks whether any secondary byte is nonzero, and
primary bit 1 mirrors the indicator. -/
def WF (bm : BitmapManager) : Prop :=
  bm.primary.length = 8 ∧ bm.secondary.length = 8 ∧
    (∀ b ∈ bm.primary, b < 256) ∧ (∀ b ∈ bm.secondary, b < 256) ∧
    (bm.hasSecondary = true ↔ ∃ b ∈ bm.secondary, b ≠ 0) ∧
    bit1 bm = bm.hasSecondary

/-- The fresh manager is well formed. -/
theorem WF_fresh : WF fresh := by
  refine ⟨rfl, rfl, ?_, ?_, ?_, rfl⟩ <;> simp [fresh, bit1]

/-- Nonzero-byte existence over a length-8 list, phrased through getD. -/
theorem exists_nonzero_iff_getD (l : List Nat) (hl : l.length = 8) :
    (∃ b ∈ l, b ≠ 0) ↔ ∃ j < 8, l.getD j 0 ≠ 0 := by
  constructor
  · rintro ⟨b, hmem, hb⟩
    obtain ⟨j, hj, hget⟩ := List.mem_iff_getElem.mp hmem
    refine ⟨j, by omega, ?_⟩
    rw [List.getD_eq_getElem?_getD, List.getElem?_eq_getElem hj]
    simpa [hget] using hb
  · rintro ⟨j, hj, hget⟩
    have hjl : j < l.length := by omega
    rw [List.getD_eq_getElem?_getD, List.getElem?_eq_getElem hjl] at hget
    exact ⟨l[j], List.getElem_mem hjl, by simpa using hget⟩

end BitmapManager

/-- Bound on getD over a list of bytes. -/
theorem getD_lt_256 (l : List Nat) (hb : ∀ b ∈ l, b < 256) (i : Nat) : l.getD i 0 < 256 := by
  by_cases h : i < l.length
  · rw [List.getD_eq_getElem?_getD, List.getElem?_eq_getElem h]
    exact hb _ (List.getElem_mem h)
  · rw [List.getD_eq_getElem?_getD, List.getElem?_eq_none_iff.mpr (by omega)]
    simp

/-- Updating one byte with an in-range value keeps all bytes in range. -/
theorem bytes_set_lt_256 (l : List Nat) (hb : ∀ b ∈ l, b < 256) (i v : Nat) (hv : v < 256) :
    ∀ b ∈ l.set i v, b < 256 := by
  intro b hmem
  rcases List.mem_or_eq_of_mem_set hmem with h | h
  · exact hb b h
  · omega

namespace BitmapManager

/-- Updating a primary byte by an or-mask or and-mask that cannot touch the
MSB of byte 0 leaves bit 1 unchanged. -/
theorem getD0_MSB_set_invariant (p : List Nat) (hb : ∀ b ∈ p, b < 256)
    (bi i : Nat) (hi : i < 8) (hno : bi ≠ 0 ∨ i < 7) :
    (p.set bi (p.getD bi 0 ||| (1 <<< i))).getD 0 0 &&& 128 = p.getD 0 0 &&& 128 := by
  rcases hno with hbi | hlt
  · rw [getD_set_ne p bi 0 _ hbi]
  · by_cases hbi : bi = 0
    · subst hbi
      by_cases h0 : 0 < p.length
      · rw [getD_set_self p 0 _ h0]
        exact (byte_setBit_facts (p.getD 0 0) (getD_lt_256 p hb 0) i hi).2.2 hlt
      · have : p.set 0 (p.getD 0 0 ||| (1 <<< i)) = p := by
          cases p with
          | nil => rfl
          | cons a l => simp at h0
        rw [this]
    · rw [getD_set_ne p bi 0 _ hbi]

/-- Same statement for the clearing mask. -/
theorem getD0_MSB_clear_invariant (p : List Nat) (hb : ∀ b ∈ p, b < 256)
    (bi i : Nat) (hi : i < 8) (hno : bi ≠ 0 ∨ i < 7) :
    (p.set bi (p.getD bi 0 &&& (255 ^^^ (1 <<< i)))).getD 0 0 &&& 128 = p.getD 0 0 &&& 128 := by
  rcases hno with hbi | hlt
  · rw [getD_set_ne p bi 0 _ hbi]
  · by_cases hbi : bi = 0
    · subst hbi
      by_cases h0 : 0 < p.length
      · rw [getD_set_self p 0 _ h0]
        exact (byte_clearBit_facts (p.getD 0 0) (getD_lt_256 p hb 0) i hi).2 hlt
      · have : p.set 0 (p.getD 0 0 &&& (255 ^^^ (1 <<< i))) = p := by
          cases p with
          | nil => rfl
          | cons a l => simp at h0
        rw [this]
    · rw [getD_set_ne p bi 0 _ hbi]

end BitmapManager

namespace BitmapManager

/-- SetField on a primary field (2..64) in closed form. -/
theorem SetField_le64 (bm : BitmapManager) (n : Nat) (h2 : 2 ≤ n) (h64 : n ≤ 64) :
    bm.SetField n = .ok { bm with
      primary := bm.primary.set ((n - 1) / 8)
        (bm.primary.getD ((n - 1) / 8) 0 ||| (1 <<< (7 - (n - 1) % 8))) } := by
  simp only [SetField]
  rw [if_neg (by simp only [Bool.or_eq_true, decide_eq_true_eq]; omega), if_pos (by omega)]

/-- SetField on a secondary field (65..128) in closed form. -/
theorem SetField_gt64 (bm : BitmapManager) (n : Nat) (h65 : 65 ≤ n) (h128 : n ≤ 128) :
    bm.SetField n = .ok
      { hasSecondary := true,
        primary := bm.primary.set 0 (bm.primary.getD 0 0 ||| 0x80),
        secondary := bm.secondary.set ((n - 64 - 1) / 8)
          (bm.secondary.getD ((n - 64 - 1) / 8) 0 ||| (1 <<< (7 - (n - 64 - 1) % 8))) } := by
  simp only [SetField]
  rw [if_neg (by simp only [Bool.or_eq_true, decide_eq_true_eq]; omega), if_neg (by omega)]

/-- ClearField on a primary field (2..64) in closed form. -/
theorem ClearField_le64 (bm : BitmapManager) (n : Nat) (h2 : 2 ≤ n) (h64 : n ≤ 64) :
    bm.ClearField n = .ok { bm with
      primary := bm.primary.set ((n - 1) / 8)
        (bm.primary.getD ((n - 1) / 8) 0 &&& (255 ^^^ (1 <<< (7 - (n - 1) % 8)))) } := by
  simp only [ClearField]
  rw [if_neg (by simp only [Bool.or_eq_true, decide_eq_true_eq]; omega), if_pos (by omega)]

/-- ClearField on a secondary field with the indicator off does nothing. -/
theorem ClearField_gt64_noSec (bm : BitmapManager) (n : Nat) (h65 : 65 ≤ n) (h128 : n ≤ 128)
    (hsec : bm.hasSecondary = false) : bm.ClearField n = .ok bm := by
  simp only [ClearField]
  rw [if_neg (by simp only [Bool.or_eq_true, decide_eq_true_eq]; omega), if_neg (by omega),
    if_pos (by simp [hsec])]

/-- ClearField on a secondary field with the indicator on, in closed form:
the cleared block decides whether the indicator and bit 1 drop. -/
theorem ClearField_gt64_sec (bm : BitmapManager) (n : Nat) (h65 : 65 ≤ n) (h128 : n ≤ 128)
    (hsec : bm.hasSecondary = true) :
    bm.ClearField n =
      (if (bm.secondary.set ((n - 64 - 1) / 8)
            (bm.secondary.getD ((n - 64 - 1) / 8) 0 &&& (255 ^^^ (1 <<< (7 - (n - 64 - 1) % 8))))).all
            (· == 0) then
        .ok
          { primary := bm.primary.set 0 (bm.primary.getD 0 0 &&& (255 ^^^ 0x80)),
            secondary := bm.secondary.set ((n - 64 - 1) / 8)
              (bm.secondary.getD ((n - 64 - 1) / 8) 0 &&& (255 ^^^ (1 <<< (7 - (n - 64 - 1) % 8)))),
            hasSecondary := false }
      else
        .ok { bm with
              secondary := bm.secondary.set ((n - 64 - 1) / 8)
                (bm.secondary.getD ((n - 64 - 1) / 8) 0 &&& (255 ^^^ (1 <<< (7 - (n - 64 - 1) % 8)))) }) := by
  simp only [ClearField]
  rw [if_neg (by simp only [Bool.or_eq_true, decide_eq_true_eq]; omega), if_neg (by omega),
    if_neg (by simp [hsec])]

end BitmapManager

namespace BitmapManager

/-- For a well-formed manager, primary bit 1 is set exactly when some field
65..128 reads as present. -/
theorem bit1_iff_secondary_field (bm : BitmapManager) (h : WF bm) :
    bit1 bm = true ↔ ∃ n, 65 ≤ n ∧ n ≤ 128 ∧ bm.IsFieldSet n = true := by
  obtain ⟨hp8, hs8, hpb, hsb, hiff, hmirror⟩ := h
  rw [hmirror]
  constructor
  · intro hsec
    obtain ⟨j, hj, hbyte⟩ := (exists_nonzero_iff_getD bm.secondary hs8).mp (hiff.mp hsec)
    have hblt : bm.secondary.getD j 0 < 256 := getD_lt_256 _ hsb j
    obtain ⟨i, hi, hbit⟩ := (byte_nonzero_iff _ hblt).mp hbyte
    refine ⟨65 + 8 * j + i, by omega, by omega, ?_⟩
    simp only [IsFieldSet]
    rw [if_neg (by simp only [Bool.or_eq_true, decide_eq_true_eq]; omega), if_neg (by omega),
      if_neg (by simp [hsec])]
    have hdiv : (65 + 8 * j + i - 64 - 1) / 8 = j := by omega
    have hmod : 7 - (65 + 8 * j + i - 64 - 1) % 8 = 7 - i := by omega
    rw [hdiv, hmod]
    simpa using hbit
  · rintro ⟨n, h65, h128, hset⟩
    simp only [IsFieldSet] at hset
    rw [if_neg (by simp only [Bool.or_eq_true, decide_eq_true_eq]; omega),
      if_neg (by omega)] at hset
    by_cases hsec : bm.hasSecondary
    · exact hsec
    · rw [if_pos (by simp [hsec])] at hset
      cases hset

/-- SetField on 2..64 preserves well-formedness and bit 1. -/
theorem WF_SetField_le64 (bm : BitmapManager) (n : Nat) (h : WF bm)
    (h2 : 2 ≤ n) (h64 : n ≤ 64) :
    ∃ bm', bm.SetField n = .ok bm' ∧ WF bm' ∧ bit1 bm' = bit1 bm ∧
      bm'.secondary = bm.secondary ∧ bm'.hasSecondary = bm.hasSecondary := by
  obtain ⟨hp8, hs8, hpb, hsb, hiff, hmirror⟩ := h
  refine ⟨_, SetField_le64 bm n h2 h64, ?_, ?_, rfl, rfl⟩
  case refine_2 =>
    show bit1 { bm with primary := _ } = bit1 bm
    simp only [bit1]
    rw [getD0_MSB_set_invariant bm.primary hpb ((n - 1) / 8) (7 - (n - 1) % 8)
      (by omega) (by omega)]
  · refine ⟨by simpa using hp8, hs8, ?_, hsb, hiff, ?_⟩
    · exact bytes_set_lt_256 _ hpb _ _
        (byte_setBit_facts _ (getD_lt_256 _ hpb _) (7 - (n - 1) % 8) (by omega)).1
    · show bit1 { bm with primary := _ } = bm.hasSecondary
      simp only [bit1]
      rw [getD0_MSB_set_invariant bm.primary hpb ((n - 1) / 8) (7 - (n - 1) % 8)
        (by omega) (by omega)]
      exact hmirror

/-- ClearField on 2..64 preserves well-formedness and bit 1. -/
theorem WF_ClearField_le64 (bm : BitmapManager) (n : Nat) (h : WF bm)
    (h2 : 2 ≤ n) (h64 : n ≤ 64) :
    ∃ bm', bm.ClearField n = .ok bm' ∧ WF bm' ∧ bit1 bm' = bit1 bm ∧
      bm'.secondary = bm.secondary ∧ bm'.hasSecondary = bm.hasSecondary := by
  obtain ⟨hp8, hs8, hpb, hsb, hiff, hmirror⟩ := h
  refine ⟨_, ClearField_le64 bm n h2 h64, ?_, ?_, rfl, rfl⟩
  case refine_2 =>
    show bit1 { bm with primary := _ } = bit1 bm
    simp only [bit1]
    rw [getD0_MSB_clear_invariant bm.primary hpb ((n - 1) / 8) (7 - (n - 1) % 8)
      (by omega) (by omega)]
  · refine ⟨by simpa using hp8, hs8, ?_, hsb, hiff, ?_⟩
    · exact bytes_set_lt_256 _ hpb _ _
        (byte_clearBit_facts _ (getD_lt_256 _ hpb _) (7 - (n - 1) % 8) (by omega)).1
    · show bit1 { bm with primary := _ } = bm.hasSecondary
      simp only [bit1]
      rw [getD0_MSB_clear_invariant bm.primary hpb ((n - 1) / 8) (7 - (n - 1) % 8)
        (by omega) (by omega)]
      exact hmirror

end BitmapManager

namespace BitmapManager

/-- SetField on 65..128 preserves well-formedness and asserts bit 1. -/
theorem WF_SetField_gt64 (bm : BitmapManager) (n : Nat) (h : WF bm)
    (h65 : 65 ≤ n) (h128 : n ≤ 128) :
    ∃ bm', bm.SetField n = .ok bm' ∧ WF bm' ∧ bit1 bm' = true := by
  obtain ⟨hp8, hs8, hpb, hsb, hiff, hmirror⟩ := h
  refine ⟨_, SetField_gt64 bm n h65 h128, ?_, ?_⟩
  case refine_2 =>
    show bit1 { hasSecondary := true, primary := _, secondary := _ } = true
    simp only [bit1]
    rw [getD_set_self bm.primary 0 _ (by omega)]
    simp only [ne_eq, decide_eq_true_eq]
    exact (byte_setMSB _ (getD_lt_256 _ hpb 0)).1
  · have hbi : (n - 64 - 1) / 8 < 8 := by omega
    have hbit : 7 - (n - 64 - 1) % 8 < 8 := by omega
    have hnewbyte := byte_setBit_facts (bm.secondary.getD ((n - 64 - 1) / 8) 0)
      (getD_lt_256 _ hsb _) (7 - (n - 64 - 1) % 8) hbit
    refine ⟨by simpa using hp8, by simpa using hs8, ?_, ?_, ?_, ?_⟩
    · exact bytes_set_lt_256 _ hpb _ _ (byte_setMSB _ (getD_lt_256 _ hpb 0)).2
    · exact bytes_set_lt_256 _ hsb _ _ hnewbyte.1
    · constructor
      · intro _
        apply (exists_nonzero_iff_getD _ (by simpa using hs8)).mpr
        refine ⟨(n - 64 - 1) / 8, hbi, ?_⟩
        rw [getD_set_self bm.secondary _ _ (by omega)]
        intro hzero
        have := hnewbyte.2.1
        rw [hzero] at this
        simp at this
      · intro _
        rfl
    · show bit1 { hasSecondary := true, primary := _, secondary := _ } = true
      simp only [bit1]
      rw [getD_set_self bm.primary 0 _ (by omega)]
      simp only [ne_eq, decide_eq_true_eq]
      exact (byte_setMSB _ (getD_lt_256 _ hpb 0)).1

/-- ClearField on 65..128 preserves well-formedness. -/
theorem WF_ClearField_gt64 (bm : BitmapManager) (n : Nat) (h : WF bm)
    (h65 : 65 ≤ n) (h128 : n ≤ 128) :
    ∃ bm', bm.ClearField n = .ok bm' ∧ WF bm' := by
  obtain ⟨hp8, hs8, hpb, hsb, hiff, hmirror⟩ := h
  by_cases hsec : bm.hasSecondary
  · have heq := ClearField_gt64_sec bm n h65 h128 hsec
    have hbit : 7 - (n - 64 - 1) % 8 < 8 := by omega
    have hnewbyte := byte_clearBit_facts (bm.secondary.getD ((n - 64 - 1) / 8) 0)
      (getD_lt_256 _ hsb _) (7 - (n - 64 - 1) % 8) hbit
    by_cases hall : (bm.secondary.set ((n - 64 - 1) / 8)
        (bm.secondary.getD ((n - 64 - 1) / 8) 0 &&&
          (255 ^^^ (1 <<< (7 - (n - 64 - 1) % 8))))).all (· == 0)
    · rw [if_pos hall] at heq
      refine ⟨_, heq, by simpa using hp8, by simpa using hs8, ?_, ?_, ?_, ?_⟩
      · exact bytes_set_lt_256 _ hpb _ _ (byte_clearMSB _ (getD_lt_256 _ hpb 0)).2
      · exact bytes_set_lt_256 _ hsb _ _ hnewbyte.1
      · simp only [Bool.false_eq_true, false_iff]
        rintro ⟨b, hmem, hb⟩
        have := List.all_eq_true.mp hall b hmem
        simp at this
        exact hb this
      · show bit1 { primary := _, secondary := _, hasSecondary := false } = false
        simp only [bit1]
        rw [getD_set_self bm.primary 0 _ (by omega)]
        simp only [ne_eq, decide_eq_true_eq, decide_eq_false_iff_not, Decidable.not_not]
        exact (byte_clearMSB _ (getD_lt_256 _ hpb 0)).1
    · rw [if_neg hall] at heq
      refine ⟨_, heq, hp8, by simpa using hs8, hpb, ?_, ?_, ?_⟩
      · exact bytes_set_lt_256 _ hsb _ _ hnewbyte.1
      · constructor
        · intro _
          rw [List.all_eq_true] at hall
          push_neg at hall
          obtain ⟨b, hmem, hb⟩ := hall
          exact ⟨b, hmem, by simpa using hb⟩
        · intro _
          exact hsec
      · show bit1 { bm with secondary := _ } = bm.hasSecondary
        simp only [bit1]
        exact hmirror
  · refine ⟨bm, ?_, hp8, hs8, hpb, hsb, hiff, hmirror⟩
    exact ClearField_gt64_noSec bm n h65 h128 (by simpa using hsec)

/-- applyOp of any call with field number 2..128 preserves well-formedness. -/
theorem WF_applyOp (bm : BitmapManager) (op : Op) (h : WF bm)
    (h2 : 2 ≤ op.num) (h128 : op.num ≤ 128) : WF (bm.applyOp op) := by
  cases op with
  | set n =>
    simp only [Op.num] at h2 h128
    by_cases h64 : n ≤ 64
    · obtain ⟨bm', heq, hwf, _⟩ := WF_SetField_le64 bm n h h2 h64
      simpa [applyOp, heq] using hwf
    · obtain ⟨bm', heq, hwf, _⟩ := WF_SetField_gt64 bm n h (by omega) h128
      simpa [applyOp, heq] using hwf
  | clear n =>
    simp only [Op.num] at h2 h128
    by_cases h64 : n ≤ 64
    · obtain ⟨bm', heq, hwf, _⟩ := WF_ClearField_le64 bm n h h2 h64
      simpa [applyOp, heq] using hwf
    · obtain ⟨bm', heq, hwf⟩ := WF_ClearField_gt64 bm n h (by omega) h128
      simpa [applyOp, heq] using hwf

/-- Folding a call sequence over a well-formed manager stays well formed. -/
theorem WF_foldl (ops : List Op) : ∀ bm : BitmapManager, WF bm →
    (∀ op ∈ ops, 2 ≤ op.num ∧ op.num ≤ 128) → WF (ops.foldl applyOp bm) := by
  induction ops with
  | nil => intro bm h _; exact h
  | cons op rest ih =>
    intro bm h hops
    have hop := hops op (List.mem_cons_self op rest)
    exact ih (bm.applyOp op) (WF_applyOp bm op h hop.1 hop.2)
      (fun o ho => hops o (List.mem_cons_of_mem op ho))

/-- Every sequence of in-range calls from a fresh manager yields a
well-formed manager. -/
theorem WF_applyOps (ops : List Op) (hops : ∀ op ∈ ops, 2 ≤ op.num ∧ op.num ≤ 128) :
    WF (applyOps ops) :=
  WF_foldl ops fresh WF_fresh hops

end BitmapManager

/-! ## Hex codec lemmas (claims C7 and C1) -/

/-- Case analysis facts for single hex characters, checked exhaustively. -/
theorem hexChar_cases : ∀ c < 103, (isHexDigit c = true → (hexVal c).isSome = true) ∧
    (isUpperHexDigit c = true → ∀ v, hexVal c = some v → upperHexChar v = c ∧ v < 16) := by
  decide

/-- hexVal only accepts characters below 103. -/
theorem hexVal_bound (c : Nat) (v : Nat) (h : hexVal c = some v) : c < 103 ∧ v < 16 := by
  unfold hexVal at h
  repeat' split at h
  all_goals simp_all
  all_goals omega

/-- Nibble recomposition facts, checked exhaustively. -/
theorem nibble_facts : ∀ hi < 16, ∀ lo < 16,
    (hi <<< 4 ||| lo) >>> 4 = hi ∧ (hi <<< 4 ||| lo) &&& 0x0f = lo ∧ (hi <<< 4 ||| lo) < 256 := by
  decide

/-- Uppercase hex characters of an in-range nibble pair. -/
theorem upperHexChar_is_upper : ∀ v < 16, isUpperHexDigit (upperHexChar v) = true := by decide

/-- A decode yields half as many bytes, all in range. -/
theorem decodeHex_shape : ∀ (bs p : List Nat), decodeHex bs = some p →
    p.length * 2 = bs.length ∧ ∀ b ∈ p, b < 256 := by
  intro bs
  induction bs using decodeHex.induct with
  | case1 =>
    intro p h
    simp [decodeHex] at h
    subst h
    simp
  | case2 c =>
    intro p h
    simp [decodeHex] at h
  | case3 c1 c2 rest hi lo hlo hhi bs' hbs' ih =>
    intro p h
    simp only [decodeHex, hhi, hlo, hbs'] at h
    obtain rfl : (hi <<< 4 ||| lo) :: bs' = p := by
      injection h
    obtain ⟨hlen, hbnd⟩ := ih bs' hbs'
    have hhi16 := (hexVal_bound c1 hi hhi).2
    have hlo16 := (hexVal_bound c2 lo hlo).2
    refine ⟨by simp; omega, ?_⟩
    intro b hb
    rcases List.mem_cons.mp hb with hb | hb
    · subst hb
      exact (nibble_facts hi hhi16 lo hlo16).2.2
    · exact hbnd b hb
  | case4 c1 c2 rest hi lo hlo hhi hnone ih =>
    intro p h
    simp only [decodeHex, hhi, hlo, hnone] at h
    cases h
  | case5 c1 c2 rest hfail =>
    intro p h
    simp only [decodeHex] at h
    cases h

/-- All-hex strings of even length decode successfully. -/
theorem decodeHex_accepts : ∀ (bs : List Nat), bs.length % 2 = 0 →
    (∀ c ∈ bs, isHexDigit c = true) → (decodeHex bs).isSome = true := by
  intro bs
  induction bs using decodeHex.induct with
  | case1 => intro _ _; simp [decodeHex]
  | case2 c => intro h _; simp at h
  | case3 c1 c2 rest hi lo hlo hhi bs' hbs' ih =>
    intro _ _
    simp [decodeHex, hhi, hlo, hbs']
  | case4 c1 c2 rest hi lo hlo hhi hnone ih =>
    intro hlen hall
    have hrest : (decodeHex rest).isSome = true := by
      apply ih
      · simp only [List.length_cons] at hlen
        omega
      · intro c hc
        exact hall c (by simp [hc])
    rw [hnone] at hrest
    cases hrest
  | case5 c1 c2 rest hfail =>
    intro hlen hall
    have hc1 : isHexDigit c1 = true := hall c1 (by simp)
    have hc2 : isHexDigit c2 = true := hall c2 (by simp)
    have hb1 : c1 < 103 := by
      unfold isHexDigit at hc1
      simp only [Bool.or_eq_true, Bool.and_eq_true, decide_eq_true_eq] at hc1
      omega
    have hb2 : c2 < 103 := by
      unfold isHexDigit at hc2
      simp only [Bool.or_eq_true, Bool.and_eq_true, decide_eq_true_eq] at hc2
      omega
    have hs1 := (hexChar_cases c1 hb1).1 hc1
    have hs2 := (hexChar_cases c2 hb2).1 hc2
    obtain ⟨v1, hv1⟩ := Option.isSome_iff_exists.mp hs1
    obtain ⟨v2, hv2⟩ := Option.isSome_iff_exists.mp hs2
    exact absurd (hfail v1 v2 hv1 hv2) (by simp)

/-- Nibble extraction bounds, checked exhaustively. -/
theorem nibble_bounds : ∀ b < 256, b >>> 4 < 16 ∧ (b &&& 0x0f) < 16 := by decide

/-- An uppercase hex encoding is twice as long as its input. -/
theorem encodeHexUpper_length : ∀ bs : List Nat, (encodeHexUpper bs).length = 2 * bs.length := by
  intro bs
  induction bs with
  | nil => rfl
  | cons b rest ih =>
    simp only [encodeHexUpper, List.length_cons, ih]
    omega

/-- Every character emitted by encodeHexUpper for in-range bytes is an
uppercase hex digit. -/
theorem encodeHexUpper_upper : ∀ bs : List Nat, (∀ b ∈ bs, b < 256) →
    ∀ c ∈ encodeHexUpper bs, isUpperHexDigit c = true := by
  intro bs
  induction bs with
  | nil => intro _ c hc; cases hc
  | cons b rest ih =>
    intro hall c hc
    have hb : b < 256 := hall b (by simp)
    obtain ⟨hhi, hlo⟩ := nibble_bounds b hb
    simp only [encodeHexUpper, List.mem_cons] at hc
    rcases hc with rfl | rfl | hc
    · exact upperHexChar_is_upper _ hhi
    · exact upperHexChar_is_upper _ hlo
    · exact ih (fun x hx => hall x (by simp [hx])) c hc

/-- Re-encoding a decode of uppercase hex characters reproduces the input
byte-for-byte. -/
theorem encodeHexUpper_decodeHex : ∀ (bs p : List Nat),
    (∀ c ∈ bs, isUpperHexDigit c = true) → decodeHex bs = some p →
    encodeHexUpper p = bs := by
  intro bs
  induction bs using decodeHex.induct with
  | case1 =>
    intro p _ h
    simp [decodeHex] at h
    subst h
    rfl
  | case2 c =>
    intro p _ h
    simp [decodeHex] at h
  | case3 c1 c2 rest hi lo hlo hhi bs' hbs' ih =>
    intro p hupper h
    simp only [decodeHex, hhi, hlo, hbs'] at h
    obtain rfl : (hi <<< 4 ||| lo) :: bs' = p := by injection h
    have hu1 : isUpperHexDigit c1 = true := hupper c1 (by simp)
    have hu2 : isUpperHexDigit c2 = true := hupper c2 (by simp)
    have hb1 := hexVal_bound c1 hi hhi
    have hb2 := hexVal_bound c2 lo hlo
    obtain ⟨hc1, hi16⟩ := (hexChar_cases c1 hb1.1).2 hu1 hi hhi
    obtain ⟨hc2, lo16⟩ := (hexChar_cases c2 hb2.1).2 hu2 lo hlo
    obtain ⟨hn1, hn2, _⟩ := nibble_facts hi hi16 lo lo16
    simp only [encodeHexUpper, hn1, hn2, hc1, hc2, List.cons.injEq, true_and]
    exact ih bs' (fun c hc => hupper c (by simp [hc])) hbs'
  | case4 c1 c2 rest hi lo hlo hhi hnone ih =>
    intro p _ h
    simp only [decodeHex, hhi, hlo, hnone] at h
    cases h
  | case5 c1 c2 rest hfail =>
    intro p _ h
    simp only [decodeHex] at h
    cases h

/-- C7: bitmap hex unpacking accepts upper and lowercase hex digits, and
bitmap hex packing emits only uppercase hex characters, 16 when no secondary
bitmap is present and 32 otherwise. -/
theorem C7_bitmap_hex_case :
    (∀ bm : BitmapManager, bm.primary.length = 8 → (∀ b ∈ bm.primary, b < 256) →
       bm.hasSecondary = false → ∀ bufLen, 16 ≤ bufLen →
       bm.packBitmapHex bufLen = .ok (encodeHexUpper bm.primary) ∧
         (encodeHexUpper bm.primary).length = 16 ∧
         ∀ c ∈ encodeHexUpper bm.primary, isUpperHexDigit c = true) ∧
    (∀ bm : BitmapManager, bm.primary.length = 8 → bm.secondary.length = 8 →
       (∀ b ∈ bm.primary, b < 256) → (∀ b ∈ bm.secondary, b < 256) →
       bm.hasSecondary = true → ∀ bufLen, 32 ≤ bufLen →
       bm.packBitmapHex bufLen = .ok (encodeHexUpper bm.primary ++ encodeHexUpper bm.secondary) ∧
         (encodeHexUpper bm.primary ++ encodeHexUpper bm.secondary).length = 32 ∧
         ∀ c ∈ encodeHexUpper bm.primary ++ encodeHexUpper bm.secondary,
           isUpperHexDigit c = true) ∧
    (∀ bs : List Nat, bs.length = 16 → (∀ c ∈ bs, isHexDigit c = true) →
       (decodeHex bs).isSome = true) ∧
    (∀ (bm : BitmapManager) (data p : List Nat),
       16 ≤ data.length → decodeHex (data.take 16) = some p →
       (p.getD 0 0 &&& 0x80 = 0 →
         bm.unpackBitmapHex data =
           .ok ({ primary := p, secondary := List.replicate 8 0, hasSecondary := false }, 16)) ∧
       (p.getD 0 0 &&& 0x80 ≠ 0 → 32 ≤ data.length →
         ∀ s, decodeHex ((data.drop 16).take 16) = some s →
         bm.unpackBitmapHex data = .ok ({ primary := p, secondary := s, hasSecondary := true }, 32))) := by
  refine ⟨?_, ?_, ?_, ?_⟩
  · intro bm hp8 hpb hsec bufLen hcap
    refine ⟨?_, by simp [encodeHexUpper_length, hp8], encodeHexUpper_upper bm.primary hpb⟩
    simp only [BitmapManager.packBitmapHex]
    rw [if_neg (by omega), if_neg (by simp [hsec])]
  · intro bm hp8 hs8 hpb hsb hsec bufLen hcap
    refine ⟨?_, by simp [List.length_append, encodeHexUpper_length, hp8, hs8], ?_⟩
    · simp only [BitmapManager.packBitmapHex]
      rw [if_neg (by omega), if_pos (by simp [hsec]), if_neg (by omega)]
    · intro c hc
      rcases List.mem_append.mp hc with hc | hc
      · exact encodeHexUpper_upper bm.primary hpb c hc
      · exact encodeHexUpper_upper bm.secondary hsb c hc
  · intro bs hlen hall
    exact decodeHex_accepts bs (by omega) hall
  · intro bm data p hlen hp
    constructor
    · intro hclear
      simp only [BitmapManager.unpackBitmapHex]
      rw [if_neg (by omega), hp]
      simp only
      rw [if_neg (by simpa using hclear)]
    · intro hset h32 s hs
      simp only [BitmapManager.unpackBitmapHex]
      rw [if_neg (by omega), hp]
      simp only
      rw [if_pos (by simpa using hset), if_neg (by omega), hs]

/-- Concrete check of C7: an all-hex (mixed-case) primary bitmap input is
accepted and an all-zero bitmap packs to 16 uppercase characters. -/
theorem C7_bitmap_hex_case_witness :
    (decodeHex [97, 66, 48, 48, 48, 48, 48, 48, 48, 48, 48, 48, 48, 48, 48, 48]).isSome = true ∧
    BitmapManager.packBitmapHex
      { primary := [0, 0, 0, 0, 0, 0, 0, 0], secondary := [0, 0, 0, 0, 0, 0, 0, 0],
        hasSecondary := false } 16 =
      .ok [48, 48, 48, 48, 48, 48, 48, 48, 48, 48, 48, 48, 48, 48, 48, 48] := by
  obtain ⟨hpack, _, haccept, _⟩ := C7_bitmap_hex_case
  constructor
  · exact haccept [97, 66, 48, 48, 48, 48, 48, 48, 48, 48, 48, 48, 48, 48, 48, 48]
      (by decide) (by decide)
  · have h := hpack
      { primary := [0, 0, 0, 0, 0, 0, 0, 0], secondary := [0, 0, 0, 0, 0, 0, 0, 0],
        hasSecondary := false }
      (by decide) (by decide) rfl 16 (by decide)
    exact h.1.trans rfl

/-- C10: any successful UnpackBitmap whose decoded primary has bit 1 clear
leaves the secondary storage zeroed and the indicator off, so no field
65..128 reads as set, regardless of the manager's previous state. -/
theorem C10_unpack_zeroes_stale_secondary (bm : BitmapManager) (data : List Nat)
    (enc : BitmapManager.Encoding) (bm' : BitmapManager) (c : Nat)
    (hok : bm.UnpackBitmap data enc = .ok (bm', c))
    (hbit : BitmapManager.bit1 bm' = false) :
    bm'.secondary = List.replicate 8 0 ∧ bm'.hasSecondary = false ∧
      ∀ n, 65 ≤ n → n ≤ 128 → bm'.IsFieldSet n = false := by
  have main : bm'.secondary = List.replicate 8 0 ∧ bm'.hasSecondary = false := by
    cases enc with
    | binary =>
      simp only [BitmapManager.UnpackBitmap, BitmapManager.unpackBitmapBinary] at hok
      split at hok
      · cases hok
      · split at hok
        · split at hok
          · cases hok
          · rename_i hsec _
            injection hok with h1
            injection h1 with h1 h2
            rw [← h1] at hbit
            simp only [BitmapManager.bit1, ne_eq, decide_eq_true_eq,
              decide_eq_false_iff_not, Decidable.not_not] at hbit
            exact absurd hbit hsec
        · injection hok with h1
          injection h1 with h1 h2
          rw [← h1]
          exact ⟨rfl, rfl⟩
    | hex =>
      simp only [BitmapManager.UnpackBitmap, BitmapManager.unpackBitmapHex] at hok
      split at hok
      · cases hok
      · split at hok
        · cases hok
        · rename_i p hp
          split at hok
          · rename_i hsec
            split at hok
            · cases hok
            · split at hok
              · cases hok
              · injection hok with h1
                injection h1 with h1 h2
                rw [← h1] at hbit
                simp only [BitmapManager.bit1, ne_eq, decide_eq_true_eq,
                  decide_eq_false_iff_not, Decidable.not_not] at hbit
                exact absurd hbit hsec
          · injection hok with h1
            injection h1 with h1 h2
            rw [← h1]
            exact ⟨rfl, rfl⟩
  refine ⟨main.1, main.2, ?_⟩
  intro n h65 h128
  simp only [BitmapManager.IsFieldSet]
  rw [if_neg (by simp only [Bool.or_eq_true, decide_eq_true_eq]; omega), if_neg (by omega),
    if_pos (by simp [main.2])]

/-- Concrete check of C10: unpacking an all-zero binary bitmap over a manager
with stale secondary state yields a fresh manager with field 70 clear. -/
theorem C10_unpack_zeroes_stale_secondary_witness :
    BitmapManager.fresh.secondary = List.replicate 8 0 ∧
      BitmapManager.fresh.hasSecondary = false ∧
      BitmapManager.fresh.IsFieldSet 70 = false := by
  have h := C10_unpack_zeroes_stale_secondary
    (BitmapManager.applyOps [BitmapManager.Op.set 70])
    (List.replicate 8 0) BitmapManager.Encoding.binary BitmapManager.fresh 8 rfl rfl
  exact ⟨h.1, h.2.1, h.2.2 70 (by decide) (by decide)⟩

/-- C2: after any sequence of SetField/ClearField calls with field numbers
2..128 on a fresh manager, primary bit 1 is set exactly when some field
65..128 reads as present; clearing the last such field clears bit 1. -/
theorem C2_bit1_tracks_secondary (ops : List BitmapManager.Op)
    (hops : ∀ op ∈ ops, 2 ≤ op.num ∧ op.num ≤ 128) :
    BitmapManager.bit1 (BitmapManager.applyOps ops) = true ↔
      ∃ n, 65 ≤ n ∧ n ≤ 128 ∧ (BitmapManager.applyOps ops).IsFieldSet n = true :=
  BitmapManager.bit1_iff_secondary_field _ (BitmapManager.WF_applyOps ops hops)

/-- Concrete check of C2: setting field 70 sets bit 1, clearing it again
clears bit 1. -/
theorem C2_bit1_tracks_secondary_witness :
    BitmapManager.bit1 (BitmapManager.applyOps [BitmapManager.Op.set 70]) = true ∧
    BitmapManager.bit1
      (BitmapManager.applyOps [BitmapManager.Op.set 70, BitmapManager.Op.clear 70]) = false := by
  constructor
  · exact (C2_bit1_tracks_secondary [BitmapManager.Op.set 70] (by decide)).mpr
      ⟨70, by decide, by decide, by decide⟩
  · have h := C2_bit1_tracks_secondary
      [BitmapManager.Op.set 70, BitmapManager.Op.clear 70] (by decide)
    by_contra hne
    have hb : BitmapManager.bit1
        (BitmapManager.applyOps [BitmapManager.Op.set 70, BitmapManager.Op.clear 70]) = true := by
      revert hne
      cases BitmapManager.bit1
        (BitmapManager.applyOps [BitmapManager.Op.set 70, BitmapManager.Op.clear 70]) <;> simp
    obtain ⟨n, h65, h128, hset⟩ := h.mp hb
    have hall : ∀ n < 129, 65 ≤ n →
        (BitmapManager.applyOps [BitmapManager.Op.set 70, BitmapManager.Op.clear 70]).IsFieldSet n
          = false := by decide
    have := hall n (by omega) h65
    rw [this] at hset
    cases hset

/-- Refutation of C9 as stated: the public SetField accepts field number 1
and sets primary bit 1 directly, with no field 65..128 present. -/
theorem C9_counterexample :
    BitmapManager.bit1 (BitmapManager.applyOps [BitmapManager.Op.set 1]) = true ∧
    ((List.range' 65 64).all
      (fun n => !(BitmapManager.applyOps [BitmapManager.Op.set 1]).IsFieldSet n)) = true := by
  decide

/-- C9 (amended): restricted to field numbers 2..128, bit 1 is beyond the
caller's direct reach: operations on 2..64 never change it, setting a field
65..128 sets it, and after clearing a field 65..128 it is set exactly when
some field 65..128 is still present. -/
theorem C9_bit1_encapsulated (ops : List BitmapManager.Op)
    (hops : ∀ op ∈ ops, 2 ≤ op.num ∧ op.num ≤ 128) (n : Nat) :
    (2 ≤ n → n ≤ 64 →
      BitmapManager.bit1
          ((BitmapManager.applyOps ops).applyOp (BitmapManager.Op.set n)) =
        BitmapManager.bit1 (BitmapManager.applyOps ops) ∧
      BitmapManager.bit1
          ((BitmapManager.applyOps ops).applyOp (BitmapManager.Op.clear n)) =
        BitmapManager.bit1 (BitmapManager.applyOps ops)) ∧
    (65 ≤ n → n ≤ 128 →
      BitmapManager.bit1
          ((BitmapManager.applyOps ops).applyOp (BitmapManager.Op.set n)) = true ∧
      (BitmapManager.bit1
            ((BitmapManager.applyOps ops).applyOp (BitmapManager.Op.clear n)) = true ↔
        ∃ m, 65 ≤ m ∧ m ≤ 128 ∧
          ((BitmapManager.applyOps ops).applyOp (BitmapManager.Op.clear n)).IsFieldSet m
            = true)) := by
  have hwf := BitmapManager.WF_applyOps ops hops
  constructor
  · intro h2 h64
    constructor
    · obtain ⟨bm', heq, _, hbit, _, _⟩ := BitmapManager.WF_SetField_le64 _ n hwf h2 h64
      simp [BitmapManager.applyOp, heq, hbit]
    · obtain ⟨bm', heq, _, hbit, _, _⟩ := BitmapManager.WF_ClearField_le64 _ n hwf h2 h64
      simp [BitmapManager.applyOp, heq, hbit]
  · intro h65 h128
    constructor
    · obtain ⟨bm', heq, _, hbit⟩ := BitmapManager.WF_SetField_gt64 _ n hwf h65 h128
      simp [BitmapManager.applyOp, heq, hbit]
    · obtain ⟨bm', heq, hwf'⟩ := BitmapManager.WF_ClearField_gt64 _ n hwf h65 h128
      have hiff := BitmapManager.bit1_iff_secondary_field bm' hwf'
      simpa [BitmapManager.applyOp, heq] using hiff

/-- Concrete check of the amended C9. -/
theorem C9_bit1_encapsulated_witness :
    BitmapManager.bit1 ((BitmapManager.applyOps []).applyOp (BitmapManager.Op.set 2)) =
      BitmapManager.bit1 (BitmapManager.applyOps []) ∧
    BitmapManager.bit1 ((BitmapManager.applyOps []).applyOp (BitmapManager.Op.set 70)) = true :=
  ⟨((C9_bit1_encapsulated [] (by decide) 2).1 (by decide) (by decide)).1,
   ((C9_bit1_encapsulated [] (by decide) 70).2 (by decide) (by decide)).1⟩

/-! ## Length-prefix lemmas (claims C3, C4, C6, C8, C1) -/

/-- writeIntToASCII emits exactly the requested digit count. -/
theorem writeIntToASCII_length (k : Nat) : ∀ val, (writeIntToASCII val k).length = k := by
  induction k with
  | zero => intro val; rfl
  | succ d ih =>
    intro val
    simp only [writeIntToASCII, List.length_append, ih, List.length_cons, List.length_nil]

/-- writeIntToASCII emits ASCII digits only. -/
theorem writeIntToASCII_digits (k : Nat) : ∀ val, ∀ c ∈ writeIntToASCII val k,
    isDigitByte c = true := by
  induction k with
  | zero => intro val c hc; cases hc
  | succ d ih =>
    intro val c hc
    simp only [writeIntToASCII] at hc
    rcases List.mem_append.mp hc with hc | hc
    · exact ih (val / 10) c hc
    · simp only [List.mem_singleton] at hc
      subst hc
      simp only [isDigitByte, Bool.and_eq_true, decide_eq_true_eq]
      omega

/-- The decimal value of a writeIntToASCII emission is the written value
modulo the width of the field. -/
theorem writeIntToASCII_val (k : Nat) : ∀ val,
    asciiDigitsVal (writeIntToASCII val k) = val % 10 ^ k := by
  induction k with
  | zero => intro val; simp [asciiDigitsVal, writeIntToASCII, Nat.mod_one]
  | succ d ih =>
    intro val
    simp only [writeIntToASCII, asciiDigitsVal, List.foldl_append, List.foldl_cons,
      List.foldl_nil]
    have hstep : asciiDigitsVal (writeIntToASCII (val / 10) d) * 10 + (val % 10 + 48 - 48) =
        val % 10 ^ (d + 1) := by
      rw [ih (val / 10)]
      have hmul : val % (10 * 10 ^ d) = val % 10 + 10 * (val / 10 % 10 ^ d) := Nat.mod_mul
      have hpow : (10 : Nat) ^ (d + 1) = 10 * 10 ^ d := by ring
      rw [hpow, hmul]
      omega
    simpa [asciiDigitsVal] using hstep

/-- Two-digit prefix reconstruction from its digits. -/
theorem writeIntToASCII_two (d0 d1 : Nat) (h0 : isDigitByte d0 = true)
    (h1 : isDigitByte d1 = true) :
    writeIntToASCII ((d0 - 48) * 10 + (d1 - 48)) 2 = [d0, d1] := by
  simp only [isDigitByte, Bool.and_eq_true, decide_eq_true_eq] at h0 h1
  simp only [writeIntToASCII, List.nil_append, List.cons_append, List.cons.injEq, and_true,
    List.nil_append]
  constructor <;> omega

/-- Three-digit prefix reconstruction from its digits. -/
theorem writeIntToASCII_three (d0 d1 d2 : Nat) (h0 : isDigitByte d0 = true)
    (h1 : isDigitByte d1 = true) (h2 : isDigitByte d2 = true) :
    writeIntToASCII ((d0 - 48) * 100 + (d1 - 48) * 10 + (d2 - 48)) 3 = [d0, d1, d2] := by
  simp only [isDigitByte, Bool.and_eq_true, decide_eq_true_eq] at h0 h1 h2
  simp only [writeIntToASCII, List.nil_append, List.cons_append, List.cons.injEq, and_true]
  refine ⟨by omega, by omega, by omega⟩

/-- Four-digit prefix reconstruction from its digits. -/
theorem writeIntToASCII_four (d0 d1 d2 d3 : Nat) (h0 : isDigitByte d0 = true)
    (h1 : isDigitByte d1 = true) (h2 : isDigitByte d2 = true) (h3 : isDigitByte d3 = true) :
    writeIntToASCII ((d0 - 48) * 1000 + (d1 - 48) * 100 + (d2 - 48) * 10 + (d3 - 48)) 4 =
      [d0, d1, d2, d3] := by
  simp only [isDigitByte, Bool.and_eq_true, decide_eq_true_eq] at h0 h1 h2 h3
  simp only [writeIntToASCII, List.nil_append, List.cons_append, List.cons.injEq, and_true]
  refine ⟨by omega, by omega, by omega, by omega⟩

/-! ## Claim C3: FIXED-field padding in the map-based Pack -/

/-- Refutation of C3 as stated: a short numeric FIXED field is written
data-first with '0' padding appended on the right, not left-padded. -/
theorem C3_counterexample :
    ISO.packOneField { fieldType := FieldType.N, lengthType := LengthType.Fixed, maxLength := 6 }
        [49, 50] 6 0 = .ok [49, 50, 48, 48, 48, 48] ∧
      [49, 50, 48, 48, 48, 48] ≠ [48, 48, 48, 48, 49, 50] :=
  ⟨rfl, by decide⟩

/-- C3 (amended): a FIXED field is emitted as exactly maxLength bytes; data
shorter than maxLength is written first and the remainder is filled with '0'
for numeric fields and ' ' otherwise (right padding in both cases); longer
data is truncated to maxLength.  No error is raised by this Pack. -/
theorem C3_fixed_padding (ft : FieldType) (maxLen : Nat) (fieldData : List Nat)
    (bufLen pos : Nat) (hcap : pos + maxLen ≤ bufLen) :
    ∃ out,
      ISO.packOneField { fieldType := ft, lengthType := LengthType.Fixed, maxLength := maxLen }
          fieldData bufLen pos = .ok out ∧
      out.length = maxLen ∧
      (fieldData.length < maxLen →
        out = fieldData ++
          List.replicate (maxLen - fieldData.length) (if ft = FieldType.N then 48 else 32)) ∧
      (maxLen ≤ fieldData.length → out = fieldData.take maxLen) := by
  simp only [ISO.packOneField]
  rw [if_neg (by omega)]
  by_cases hshort : fieldData.length < maxLen
  · rw [if_pos hshort]
    refine ⟨_, rfl, ?_, fun _ => rfl, fun h => by omega⟩
    simp [List.length_append, List.length_replicate]
    omega
  · rw [if_neg hshort]
    refine ⟨_, rfl, ?_, fun h => by omega, fun _ => rfl⟩
    simp [List.length_take]
    omega

/-- Concrete check of the amended C3: short numeric data is right-padded
with '0', long data is truncated. -/
theorem C3_fixed_padding_witness :
    ISO.packOneField { fieldType := FieldType.N, lengthType := LengthType.Fixed, maxLength := 4 }
        [49, 50] 4 0 = .ok [49, 50, 48, 48] ∧
    ISO.packOneField { fieldType := FieldType.ANS, lengthType := LengthType.Fixed, maxLength := 2 }
        [65, 66, 67] 2 0 = .ok [65, 66] := by
  constructor
  · obtain ⟨out, hout, _, hshort, _⟩ := C3_fixed_padding FieldType.N 4 [49, 50] 4 0 (by decide)
    rw [hout, hshort (by decide)]
    rfl
  · obtain ⟨out, hout, _, _, hlong⟩ := C3_fixed_padding FieldType.ANS 2 [65, 66, 67] 2 0 (by decide)
    rw [hout, hlong (by decide)]
    rfl

/-! ## Claim C4: variable-length prefixes written by the pooled Pack -/

/-- Schema used by the C4 refutation: field 2 is LLVAR. -/
def c4Pk : Pooled.Packager :=
  { fieldConfigs := fun n =>
      if n = 2 then some { fieldType := FieldType.N, length := LengthType.LLVAR, maxLength := 19 }
      else none,
    bitmapEncoding := BitmapManager.Encoding.hex,
    headerType := HeaderType.hNone,
    headerLength := 0 }

/-- Message used by the C4 refutation: field 2 holds 100 bytes, beyond what
two prefix digits can express. -/
def c4Msg : Pooled.Message :=
  { mti := [48, 50, 48, 48], header := [],
    bitmap := BitmapManager.applyOps [BitmapManager.Op.set 2],
    fields := fun n => if n = 2 then some (List.replicate 100 49) else none }

/-- Refutation of C4 as stated: Pack succeeds on a 100-byte LLVAR value and
emits the prefix 00, whose decimal value is not the stored length. -/
theorem C4_counterexample :
    Pooled.Pack c4Pk c4Msg 200 =
      .ok ([48, 50, 48, 48] ++
        [52, 48, 48, 48, 48, 48, 48, 48, 48, 48, 48, 48, 48, 48, 48, 48] ++
        ([48, 48] ++ List.replicate 100 49)) ∧
    asciiDigitsVal [48, 48] ≠ (List.replicate 100 49).length :=
  ⟨rfl, by decide⟩

/-- C4 (amended): each present variable-length field is emitted with a
2/3/4-character ASCII-decimal prefix whose decimal value equals the stored
value length reduced modulo 10^digits; in particular it equals the stored
length exactly when the length is below 10^digits (Pack enforces no maximum
at this point). -/
theorem C4_var_prefix (pk : Pooled.Packager) (fields : Nat → Option (List Nat))
    (n bufLen offset : Nat) (cfg : Pooled.FieldConfig) (v : List Nat)
    (hcfg : pk.fieldConfigs n = some cfg) (hv : fields n = some v) :
    (cfg.length = LengthType.LLVAR → offset + 2 + v.length ≤ bufLen →
      Pooled.packField pk fields n bufLen offset = .ok (writeIntToASCII v.length 2 ++ v) ∧
      (writeIntToASCII v.length 2).length = 2 ∧
      (∀ c ∈ writeIntToASCII v.length 2, isDigitByte c = true) ∧
      asciiDigitsVal (writeIntToASCII v.length 2) = v.length % 100 ∧
      (v.length < 100 → asciiDigitsVal (writeIntToASCII v.length 2) = v.length)) ∧
    (cfg.length = LengthType.LLLVAR → offset + 3 + v.length ≤ bufLen →
      Pooled.packField pk fields n bufLen offset = .ok (writeIntToASCII v.length 3 ++ v) ∧
      (writeIntToASCII v.length 3).length = 3 ∧
      (∀ c ∈ writeIntToASCII v.length 3, isDigitByte c = true) ∧
      asciiDigitsVal (writeIntToASCII v.length 3) = v.length % 1000 ∧
      (v.length < 1000 → asciiDigitsVal (writeIntToASCII v.length 3) = v.length)) ∧
    (cfg.length = LengthType.LLLLVAR → offset + 4 + v.length ≤ bufLen →
      Pooled.packField pk fields n bufLen offset = .ok (writeIntToASCII v.length 4 ++ v) ∧
      (writeIntToASCII v.length 4).length = 4 ∧
      (∀ c ∈ writeIntToASCII v.length 4, isDigitByte c = true) ∧
      asciiDigitsVal (writeIntToASCII v.length 4) = v.length % 10000 ∧
      (v.length < 10000 → asciiDigitsVal (writeIntToASCII v.length 4) = v.length)) := by
  refine ⟨?_, ?_, ?_⟩ <;> intro hkind hcap
  · refine ⟨?_, writeIntToASCII_length 2 v.length, writeIntToASCII_digits 2 v.length, ?_, ?_⟩
    · simp only [Pooled.packField, hv, hcfg, hkind]
      rw [if_neg (by omega), if_neg (by omega)]
    · simpa using writeIntToASCII_val 2 v.length
    · intro hlt
      have := writeIntToASCII_val 2 v.length
      simp only [show (10 : Nat) ^ 2 = 100 by norm_num] at this
      omega
  · refine ⟨?_, writeIntToASCII_length 3 v.length, writeIntToASCII_digits 3 v.length, ?_, ?_⟩
    · simp only [Pooled.packField, hv, hcfg, hkind]
      rw [if_neg (by omega), if_neg (by omega)]
    · simpa using writeIntToASCII_val 3 v.length
    · intro hlt
      have := writeIntToASCII_val 3 v.length
      simp only [show (10 : Nat) ^ 3 = 1000 by norm_num] at this
      omega
  · refine ⟨?_, writeIntToASCII_length 4 v.length, writeIntToASCII_digits 4 v.length, ?_, ?_⟩
    · simp only [Pooled.packField, hv, hcfg, hkind]
      rw [if_neg (by omega), if_neg (by omega)]
    · simpa using writeIntToASCII_val 4 v.length
    · intro hlt
      have := writeIntToASCII_val 4 v.length
      simp only [show (10 : Nat) ^ 4 = 10000 by norm_num] at this
      omega

/-- Concrete check of the amended C4: a 16-byte LLVAR value gets prefix 16. -/
theorem C4_var_prefix_witness :
    Pooled.packField c4Pk (fun n => if n = 2 then some (List.replicate 16 49) else none)
        2 40 0 = .ok ([49, 54] ++ List.replicate 16 49) := by
  have h := ( C4_var_prefix c4Pk (fun n => if n = 2 then some (List.replicate 16 49) else none)
    2 40 0 { fieldType := FieldType.N, length := LengthType.LLVAR, maxLength := 19 }
    (List.replicate 16 49) rfl rfl).1 rfl (by decide)
  exact h.1.trans rfl

/-! ## Claim C6: truncated LLVAR value during unpack -/

/-- Schema used by the C6 refutation: field 2 is LLVAR, hex bitmap. -/
def c6Pk : Pooled.Packager :=
  { fieldConfigs := fun n =>
      if n = 2 then some { fieldType := FieldType.N, length := LengthType.LLVAR, maxLength := 19 }
      else none,
    bitmapEncoding := BitmapManager.Encoding.hex,
    headerType := HeaderType.hNone,
    headerLength := 0 }

/-- Wire bytes used by the C6 refutation: MTI 0200, bitmap with only bit 2,
LLVAR prefix 20 followed by only 16 value bytes. -/
def c6Data : List Nat :=
  [48, 50, 48, 48] ++
    [52, 48, 48, 48, 48, 48, 48, 48, 48, 48, 48, 48, 48, 48, 48, 48] ++
    ([50, 48] ++ List.replicate 16 49)

/-- Refutation of C6 as stated: Message.Unpack rejects the truncated LLVAR
value with INVALID_LENGTH wrapped with the field number, not with
INSUFFICIENT_DATA. -/
theorem C6_counterexample :
    Pooled.Unpack c6Pk c6Data = .error (.fieldError 2 .invalidLength) ∧
      Err.fieldError 2 Err.invalidLength ≠ Err.insufficientData :=
  ⟨rfl, by decide⟩

/-- C6 (amended): a variable-length field whose declared length exceeds the
remaining bytes always fails; the pooled Message.Unpack path reports
INVALID_LENGTH (wrapped with the field number by the caller), while the
stack implementation's parseField reports INSUFFICIENT_DATA. -/
theorem C6_truncated_llvar :
    (∀ (pk : Pooled.Packager) (fields : Nat → Option (List Nat)) (data : List Nat)
       (offset : Nat) (cfg : Pooled.FieldConfig),
       pk.fieldConfigs 2 = some cfg → cfg.length = LengthType.LLVAR →
       offset + 2 ≤ data.length →
       isDigitByte (data.getD offset 0) = true → isDigitByte (data.getD (offset + 1) 0) = true →
       data.length <
         offset + 2 + ((data.getD offset 0 - 48) * 10 + (data.getD (offset + 1) 0 - 48)) →
       Pooled.parseField pk fields 2 data offset = .error .invalidLength) ∧
    (∀ (field data : List Nat), 2 ≤ data.length →
       isDigitByte (data.getD 0 0) = true → isDigitByte (data.getD 1 0) = true →
       data.length < 2 + ((data.getD 0 0 - 48) * 10 + (data.getD 1 0 - 48)) →
       Stack.parseField field Stack.specLLVAR data = .error .insufficientData) := by
  constructor
  · intro pk fields data offset cfg hcfg hkind hpre hd0 hd1 hlack
    simp only [Pooled.parseField, hcfg]
    have hcalc : Pooled.calculateFieldLength cfg data offset =
        .ok ((data.getD offset 0 - 48) * 10 + (data.getD (offset + 1) 0 - 48), offset + 2) := by
      simp only [Pooled.calculateFieldLength, hkind]
      rw [if_neg (by omega),
        if_neg (by simp only [List.getD_eq_getElem?_getD] at hd0 hd1; simp [hd0, hd1])]
    rw [hcalc]
    simp only
    rw [if_pos (by omega)]
  · intro field data hlen hd0 hd1 hlack
    simp only [Stack.parseField, Stack.specLLVAR]
    rw [if_neg (by norm_num), if_pos (by norm_num), if_neg (by omega)]
    have hdec : Stack.parseDecimal2 (data.take 2) =
        .ok ((data.getD 0 0 - 48) * 10 + (data.getD 1 0 - 48)) := by
      simp only [Stack.parseDecimal2]
      rw [if_neg ?hcond]
      case hcond =>
        have ht0 : (data.take 2).getD 0 0 = data.getD 0 0 := by
          cases data with
          | nil => rfl
          | cons a rest => rfl
        have ht1 : (data.take 2).getD 1 0 = data.getD 1 0 := by
          cases data with
          | nil => rfl
          | cons a rest =>
            cases rest with
            | nil => rfl
            | cons b rest2 => rfl
        have htl : (data.take 2).length = 2 := by
          simp [List.length_take]
          omega
        have hg0 : data.getD 0 0 = data.get ⟨0, by omega⟩ := List.getD_eq_getElem data 0 (by omega)
        have hg1 : data.getD 1 0 = data.get ⟨1, by omega⟩ := List.getD_eq_getElem data 0 (by omega)
        rw [hg0] at hd0
        rw [hg1] at hd1
        simp only [List.get_eq_getElem] at hd0 hd1
        simp [htl, ht0, ht1, hd0, hd1, hg0, hg1, List.get_eq_getElem]
      have ht0 : (data.take 2).getD 0 0 = data.getD 0 0 := by
        cases data with
        | nil => rfl
        | cons a rest => rfl
      have ht1 : (data.take 2).getD 1 0 = data.getD 1 0 := by
        cases data with
        | nil => rfl
        | cons a rest =>
          cases rest with
          | nil => rfl
          | cons b rest2 => rfl
      rw [ht0, ht1]
    rw [hdec]
    simp only
    rw [if_pos (by omega)]

/-- Concrete check of the amended C6: prefix 20 with only 16 bytes left. -/
theorem C6_truncated_llvar_witness :
    Pooled.parseField c6Pk (fun _ => none) 2 ([50, 48] ++ List.replicate 16 49) 0 =
      .error .invalidLength ∧
    Stack.parseField [] Stack.specLLVAR ([50, 48] ++ List.replicate 16 49) =
      .error .insufficientData := by
  obtain ⟨hpooled, hstack⟩ := C6_truncated_llvar
  constructor
  · exact hpooled c6Pk (fun _ => none) ([50, 48] ++ List.replicate 16 49) 0
      { fieldType := FieldType.N, length := LengthType.LLVAR, maxLength := 19 }
      rfl rfl (by decide) (by decide) (by decide) (by decide)
  · exact hstack [] ([50, 48] ++ List.replicate 16 49) (by decide) (by decide) (by decide)
      (by decide)

/-! ## Claim C8: zero-length LLVAR fields -/

/-- Refutation of the presence part of C8 for the stack implementation: a
length-00 LLVAR leaves the field untouched (here: still empty), so the field
is not populated even though its bitmap bit was set. -/
theorem C8_counterexample :
    Stack.parseField [] Stack.specLLVAR [48, 48, 49, 50] = .ok ([], 2) ∧
      Stack.fieldIsEmpty [] = true :=
  ⟨rfl, rfl⟩

/-- C8 (amended): a variable-length field with prefix 00 consumes exactly
the two prefix digits and no value bytes.  In the pooled Message.Unpack the
field is stored as a present zero-length value; in the stack implementation
Field.Set is skipped and the field keeps its previous (empty) contents, so
it does not read as populated.  Parsing resumes immediately after the
prefix in both. -/
theorem C8_zero_length_llvar :
    (∀ (pk : Pooled.Packager) (fields : Nat → Option (List Nat)) (n : Nat) (data : List Nat)
       (offset : Nat) (cfg : Pooled.FieldConfig),
       pk.fieldConfigs n = some cfg → cfg.length = LengthType.LLVAR →
       offset + 2 ≤ data.length →
       data.getD offset 0 = 48 → data.getD (offset + 1) 0 = 48 →
       ∃ fields', Pooled.parseField pk fields n data offset = .ok (fields', offset + 2) ∧
         fields' n = some [] ∧ ∀ m, m ≠ n → fields' m = fields m) ∧
    (∀ (field : List Nat) (rest : List Nat),
       Stack.parseField field Stack.specLLVAR (48 :: 48 :: rest) = .ok (field, 2)) := by
  constructor
  · intro pk fields n data offset cfg hcfg hkind hpre hd0 hd1
    simp only [Pooled.parseField, hcfg]
    have hcalc : Pooled.calculateFieldLength cfg data offset = .ok (0, offset + 2) := by
      simp only [Pooled.calculateFieldLength, hkind]
      simp only [List.getD_eq_getElem?_getD] at hd0 hd1
      rw [if_neg (by omega), if_neg (by simp [hd0, hd1, isDigitByte])]
      simp only [List.getD_eq_getElem?_getD, hd0, hd1]
    rw [hcalc]
    simp only
    rw [if_neg (by omega)]
    refine ⟨_, rfl, ?_, ?_⟩
    · simp
    · intro m hm
      simp [hm]
  · intro field rest
    simp only [Stack.parseField, Stack.specLLVAR]
    rw [if_neg (by norm_num), if_pos (by norm_num), if_neg (by simp)]
    have hdec : Stack.parseDecimal2 ((48 :: 48 :: rest).take 2) = .ok 0 := by
      rfl
    rw [hdec]
    simp only
    rw [if_neg (by simp), if_neg (by omega)]

/-- Concrete check of the amended C8. -/
theorem C8_zero_length_llvar_witness :
    (∃ fields', Pooled.parseField c6Pk (fun _ => none) 2 [48, 48, 49, 50] 0 =
        .ok (fields', 2) ∧ fields' 2 = some [] ∧ ∀ m, m ≠ 2 → fields' m = none) ∧
    Stack.parseField [49] Stack.specLLVAR [48, 48, 53] = .ok ([49], 2) := by
  obtain ⟨hpooled, hstack⟩ := C8_zero_length_llvar
  refine ⟨?_, hstack [49] [53]⟩
  obtain ⟨fields', heq, hn, hm⟩ := hpooled c6Pk (fun _ => none) 2 [48, 48, 49, 50] 0
    { fieldType := FieldType.N, length := LengthType.LLVAR, maxLength := 19 }
    rfl rfl (by decide) (by decide) (by decide)
  exact ⟨fields', heq, hn, hm⟩

/-! ## Claim C1: pack of an unpacked buffer reproduces the consumed prefix -/

/-- Expose the head of a drop through getD. -/
theorem drop_getD_cons (data : List Nat) (o : Nat) (h : o < data.length) :
    data.drop o = data.getD o 0 :: data.drop (o + 1) := by
  rw [List.drop_eq_getElem_cons h, List.getD_eq_getElem data 0 h]

/-- The first two bytes at an offset, as a take. -/
theorem take_two_getD (data : List Nat) (o : Nat) (h : o + 2 ≤ data.length) :
    (data.drop o).take 2 = [data.getD o 0, data.getD (o + 1) 0] := by
  rw [drop_getD_cons data o (by omega), List.take_succ_cons,
    drop_getD_cons data (o + 1) (by omega), List.take_succ_cons, List.take_zero]

/-- The first three bytes at an offset, as a take. -/
theorem take_three_getD (data : List Nat) (o : Nat) (h : o + 3 ≤ data.length) :
    (data.drop o).take 3 = [data.getD o 0, data.getD (o + 1) 0, data.getD (o + 2) 0] := by
  rw [drop_getD_cons data o (by omega), List.take_succ_cons,
    drop_getD_cons data (o + 1) (by omega), List.take_succ_cons,
    drop_getD_cons data (o + 2) (by omega), List.take_succ_cons, List.take_zero]

/-- The first four bytes at an offset, as a take. -/
theorem take_four_getD (data : List Nat) (o : Nat) (h : o + 4 ≤ data.length) :
    (data.drop o).take 4 =
      [data.getD o 0, data.getD (o + 1) 0, data.getD (o + 2) 0, data.getD (o + 3) 0] := by
  rw [drop_getD_cons data o (by omega), List.take_succ_cons,
    drop_getD_cons data (o + 1) (by omega), List.take_succ_cons,
    drop_getD_cons data (o + 2) (by omega), List.take_succ_cons,
    drop_getD_cons data (o + 3) (by omega), List.take_succ_cons, List.take_zero]

/-- getD through a drop. -/
theorem getD_drop (data : List Nat) (m i : Nat) :
    (data.drop m).getD i 0 = data.getD (m + i) 0 := by
  simp [List.getD_eq_getElem?_getD, List.getElem?_drop]

/-- A pointwise property of the first k positions covers all members of the
corresponding take. -/
theorem mem_take_of_getD (data : List Nat) (k : Nat) (P : Nat → Prop)
    (h : ∀ i < k, P (data.getD i 0)) : ∀ c ∈ data.take k, P c := by
  intro c hc
  obtain ⟨i, hi, hget⟩ := List.mem_iff_getElem.mp hc
  have hlen : (data.take k).length = min k data.length := by simp
  have hik : i < k := by omega
  have hidata : i < data.length := by omega
  rw [List.getElem_take] at hget
  have hgd : data.getD i 0 = data[i] := List.getD_eq_getElem data 0 hidata
  rw [← hget, ← hgd]
  exact h i hik

/-- packField only reads its own field entry, so tables that agree there
pack identically. -/
theorem packField_congr (pk : Pooled.Packager) (F G : Nat → Option (List Nat))
    (n bufLen offset : Nat) (h : F n = G n) :
    Pooled.packField pk F n bufLen offset = Pooled.packField pk G n bufLen offset := by
  simp only [Pooled.packField, h]

/-- Inversion of calculateFieldLength: what a successful length computation
says about the prefix bytes. -/
theorem calculateFieldLength_inv (cfg : Pooled.FieldConfig) (data : List Nat)
    (offset len newOffset : Nat)
    (h : Pooled.calculateFieldLength cfg data offset = .ok (len, newOffset)) :
    (cfg.length = LengthType.Fixed ∧ len = cfg.maxLength ∧ newOffset = offset) ∨
    (cfg.length = LengthType.LLVAR ∧ offset + 2 ≤ data.length ∧ newOffset = offset + 2 ∧
      isDigitByte (data.getD offset 0) = true ∧ isDigitByte (data.getD (offset + 1) 0) = true ∧
      len = (data.getD offset 0 - 48) * 10 + (data.getD (offset + 1) 0 - 48)) ∨
    (cfg.length = LengthType.LLLVAR ∧ offset + 3 ≤ data.length ∧ newOffset = offset + 3 ∧
      isDigitByte (data.getD offset 0) = true ∧ isDigitByte (data.getD (offset + 1) 0) = true ∧
      isDigitByte (data.getD (offset + 2) 0) = true ∧
      len = (data.getD offset 0 - 48) * 100 + (data.getD (offset + 1) 0 - 48) * 10 +
        (data.getD (offset + 2) 0 - 48)) ∨
    (cfg.length = LengthType.LLLLVAR ∧ offset + 4 ≤ data.length ∧ newOffset = offset + 4 ∧
      isDigitByte (data.getD offset 0) = true ∧ isDigitByte (data.getD (offset + 1) 0) = true ∧
      isDigitByte (data.getD (offset + 2) 0) = true ∧
      isDigitByte (data.getD (offset + 3) 0) = true ∧
      len = (data.getD offset 0 - 48) * 1000 + (data.getD (offset + 1) 0 - 48) * 100 +
        (data.getD (offset + 2) 0 - 48) * 10 + (data.getD (offset + 3) 0 - 48)) := by
  cases hkind : cfg.length with
  | Fixed =>
    left
    simp only [Pooled.calculateFieldLength, hkind] at h
    injection h with h1
    injection h1 with h1 h2
    exact ⟨rfl, h1.symm, h2.symm⟩
  | LLVAR =>
    right; left
    simp only [Pooled.calculateFieldLength, hkind, List.getD_eq_getElem?_getD] at h
    split at h
    · cases h
    · split at h
      · cases h
      · rename_i hlen hdig
        simp only [Bool.or_eq_true, Bool.not_eq_true'] at hdig
        push_neg at hdig
        injection h with h1
        injection h1 with h1 h2
        obtain ⟨hA, hB⟩ := hdig
        refine ⟨rfl, by omega, by omega, ?_, ?_, ?_⟩
        · simp only [List.getD_eq_getElem?_getD]
          simpa using hA
        · simp only [List.getD_eq_getElem?_getD]
          simpa using hB
        · simp only [List.getD_eq_getElem?_getD]
          omega
  | LLLVAR =>
    right; right; left
    simp only [Pooled.calculateFieldLength, hkind, List.getD_eq_getElem?_getD] at h
    split at h
    · cases h
    · split at h
      · cases h
      · rename_i hlen hdig
        simp only [Bool.or_eq_true, Bool.not_eq_true'] at hdig
        push_neg at hdig
        injection h with h1
        injection h1 with h1 h2
        obtain ⟨⟨hA, hB⟩, hC⟩ := hdig
        refine ⟨rfl, by omega, by omega, ?_, ?_, ?_, ?_⟩
        · simp only [List.getD_eq_getElem?_getD]
          simpa using hA
        · simp only [List.getD_eq_getElem?_getD]
          simpa using hB
        · simp only [List.getD_eq_getElem?_getD]
          simpa using hC
        · simp only [List.getD_eq_getElem?_getD]
          omega
  | LLLLVAR =>
    right; right; right
    simp only [Pooled.calculateFieldLength, hkind, List.getD_eq_getElem?_getD] at h
    split at h
    · cases h
    · split at h
      · cases h
      · rename_i hlen hdig
        simp only [Bool.or_eq_true, Bool.not_eq_true'] at hdig
        push_neg at hdig
        injection h with h1
        injection h1 with h1 h2
        obtain ⟨⟨⟨hA, hB⟩, hC⟩, hD⟩ := hdig
        refine ⟨rfl, by omega, by omega, ?_, ?_, ?_, ?_, ?_⟩
        · simp only [List.getD_eq_getElem?_getD]
          simpa using hA
        · simp only [List.getD_eq_getElem?_getD]
          simpa using hB
        · simp only [List.getD_eq_getElem?_getD]
          simpa using hC
        · simp only [List.getD_eq_getElem?_getD]
          simpa using hD
        · simp only [List.getD_eq_getElem?_getD]
          omega

/-- Round trip of one field: a successful parse at an offset packs back to
exactly the bytes consumed from that offset. -/
theorem parseField_roundtrip (pk : Pooled.Packager) (F : Nat → Option (List Nat))
    (n : Nat) (data : List Nat) (offset : Nat) (F2 : Nat → Option (List Nat)) (off2 : Nat)
    (h : Pooled.parseField pk F n data offset = .ok (F2, off2)) :
    offset ≤ off2 ∧ off2 ≤ data.length ∧ (∀ m, m ≠ n → F2 m = F m) ∧
      (F2 n).isSome = true ∧
      ∀ bufLen, off2 ≤ bufLen →
        Pooled.packField pk F2 n bufLen offset = .ok ((data.drop offset).take (off2 - offset)) := by
  simp only [Pooled.parseField] at h
  split at h
  · cases h
  · rename_i cfg hcfg
    split at h
    · cases h
    · rename_i fieldLength newOffset hcalc
      split at h
      · cases h
      · rename_i hdata
        simp only [Except.ok.injEq, Prod.mk.injEq] at h
        obtain ⟨hF, hoff⟩ := h
        subst hoff
        push_neg at hdata
        have hvlen : ((data.drop newOffset).take fieldLength).length = fieldLength := by
          simp only [List.length_take, List.length_drop]
          omega
        have hF2n : F2 n = some ((data.drop newOffset).take fieldLength) := by
          rw [← hF]
          simp
        have hframe : ∀ m, m ≠ n → F2 m = F m := by
          intro m hm
          rw [← hF]
          simp [hm]
        have hself : (F2 n).isSome = true := by rw [hF2n]; rfl
        rcases calculateFieldLength_inv cfg data offset fieldLength newOffset hcalc with
          ⟨hkind, hlen, hno⟩ | ⟨hkind, hpre, hno, hd0, hd1, hlen⟩ |
          ⟨hkind, hpre, hno, hd0, hd1, hd2, hlen⟩ |
          ⟨hkind, hpre, hno, hd0, hd1, hd2, hd3, hlen⟩
        · subst hno
          refine ⟨by omega, by omega, hframe, hself, ?_⟩
          intro bufLen hcap
          simp only [Pooled.packField, hF2n, hcfg, hkind]
          rw [if_neg (by rw [hvlen, hlen]; simp), if_neg (by rw [hvlen]; omega)]
          have hsub : newOffset + fieldLength - newOffset = fieldLength := by omega
          rw [hsub]
        · subst hno
          refine ⟨by omega, by omega, hframe, hself, ?_⟩
          intro bufLen hcap
          simp only [Pooled.packField, hF2n, hcfg, hkind]
          rw [if_neg (by omega), if_neg (by rw [hvlen]; omega)]
          have hw : writeIntToASCII ((data.drop (offset + 2)).take fieldLength).length 2 =
              [data.getD offset 0, data.getD (offset + 1) 0] := by
            rw [hvlen, hlen]
            exact writeIntToASCII_two _ _ hd0 hd1
          have hsub : offset + 2 + fieldLength - offset = 2 + fieldLength := by omega
          rw [hw, hsub, List.take_add (data.drop offset) 2 fieldLength, List.drop_drop,
            take_two_getD data offset (by omega)]
        · subst hno
          refine ⟨by omega, by omega, hframe, hself, ?_⟩
          intro bufLen hcap
          simp only [Pooled.packField, hF2n, hcfg, hkind]
          rw [if_neg (by omega), if_neg (by rw [hvlen]; omega)]
          have hw : writeIntToASCII ((data.drop (offset + 3)).take fieldLength).length 3 =
              [data.getD offset 0, data.getD (offset + 1) 0, data.getD (offset + 2) 0] := by
            rw [hvlen, hlen]
            exact writeIntToASCII_three _ _ _ hd0 hd1 hd2
          have hsub : offset + 3 + fieldLength - offset = 3 + fieldLength := by omega
          rw [hw, hsub, List.take_add (data.drop offset) 3 fieldLength, List.drop_drop,
            take_three_getD data offset (by omega)]
        · subst hno
          refine ⟨by omega, by omega, hframe, hself, ?_⟩
          intro bufLen hcap
          simp only [Pooled.packField, hF2n, hcfg, hkind]
          rw [if_neg (by omega), if_neg (by rw [hvlen]; omega)]
          have hw : writeIntToASCII ((data.drop (offset + 4)).take fieldLength).length 4 =
              [data.getD offset 0, data.getD (offset + 1) 0, data.getD (offset + 2) 0,
               data.getD (offset + 3) 0] := by
            rw [hvlen, hlen]
            exact writeIntToASCII_four _ _ _ _ hd0 hd1 hd2 hd3
          have hsub : offset + 4 + fieldLength - offset = 4 + fieldLength := by omega
          rw [hw, hsub, List.take_add (data.drop offset) 4 fieldLength, List.drop_drop,
            take_four_getD data offset (by omega)]

/-- Pack loop step: a present field emits its segment ahead of the rest. -/
theorem packFieldsAux_cons_ok (pk : Pooled.Packager) (F : Nat → Option (List Nat))
    (bufLen n : Nat) (ns : List Nat) (offset : Nat) (seg rest : List Nat)
    (hs : (F n).isSome = true)
    (h1 : Pooled.packField pk F n bufLen offset = .ok seg)
    (h2 : Pooled.packFieldsAux pk F bufLen ns (offset + seg.length) = .ok rest) :
    Pooled.packFieldsAux pk F bufLen (n :: ns) offset = .ok (seg ++ rest) := by
  simp [Pooled.packFieldsAux, hs, h1, h2]

/-- Pack loop step: an absent field is skipped. -/
theorem packFieldsAux_cons_skip (pk : Pooled.Packager) (F : Nat → Option (List Nat))
    (bufLen n : Nat) (ns : List Nat) (offset : Nat)
    (hs : (F n).isSome = false) :
    Pooled.packFieldsAux pk F bufLen (n :: ns) offset =
      Pooled.packFieldsAux pk F bufLen ns offset := by
  simp [Pooled.packFieldsAux, hs]

/-- Round trip of the field loop: over distinct field numbers, starting from
a table that is empty wherever the bitmap bit is clear, a successful unpack
loop repacks (with the final table) to exactly the consumed bytes. -/
theorem unpackFields_roundtrip (pk : Pooled.Packager) (bm : BitmapManager) (data : List Nat)
    (ns : List Nat) :
    ∀ (F : Nat → Option (List Nat)) (offset : Nat) (F2 : Nat → Option (List Nat)) (off2 : Nat),
      ns.Nodup →
      offset ≤ data.length →
      (∀ k ∈ ns, bm.IsFieldSet k = false → F k = none) →
      Pooled.unpackFieldsAux pk bm data ns F offset = .ok (F2, off2) →
      offset ≤ off2 ∧ off2 ≤ data.length ∧ (∀ m, m ∉ ns → F2 m = F m) ∧
        ∀ bufLen, off2 ≤ bufLen →
          Pooled.packFieldsAux pk F2 bufLen ns offset =
            .ok ((data.drop offset).take (off2 - offset)) := by
  induction ns with
  | nil =>
    intro F offset F2 off2 _ hoff _ h
    simp only [Pooled.unpackFieldsAux, Except.ok.injEq, Prod.mk.injEq] at h
    obtain ⟨hF, ho⟩ := h
    subst hF
    subst ho
    refine ⟨le_refl _, hoff, fun m _ => rfl, ?_⟩
    intro bufLen _
    simp [Pooled.packFieldsAux]
  | cons n ns ih =>
    intro F offset F2 off2 hnd hoff hinit h
    have hnn : n ∉ ns := (List.nodup_cons.mp hnd).1
    have hnd' : ns.Nodup := (List.nodup_cons.mp hnd).2
    simp only [Pooled.unpackFieldsAux] at h
    split at h
    · rename_i hbit
      split at h
      · cases h
      · rename_i F1 off1 hpf
        obtain ⟨hle1, hle2, hframe1, hsome1, hpack1⟩ :=
          parseField_roundtrip pk F n data offset F1 off1 hpf
        have hinit' : ∀ k ∈ ns, bm.IsFieldSet k = false → F1 k = none := by
          intro k hk hkbit
          rw [hframe1 k (fun he => hnn (he ▸ hk))]
          exact hinit k (List.mem_cons_of_mem _ hk) hkbit
        obtain ⟨hle3, hle4, hframe2, hpack2⟩ := ih F1 off1 F2 off2 hnd' hle2 hinit' h
        have hF2n : F2 n = F1 n := hframe2 n hnn
        refine ⟨le_trans hle1 hle3, hle4, ?_, ?_⟩
        · intro m hm
          rw [hframe2 m (fun hmns => hm (List.mem_cons_of_mem _ hmns)),
            hframe1 m (fun he => hm (he ▸ List.mem_cons_self _ _))]
        · intro bufLen hbuf
          have hsome2 : (F2 n).isSome = true := by rw [hF2n]; exact hsome1
          have hpk : Pooled.packField pk F2 n bufLen offset =
              .ok ((data.drop offset).take (off1 - offset)) := by
            rw [packField_congr pk F2 F1 n bufLen offset hF2n]
            exact hpack1 bufLen (le_trans hle3 hbuf)
          have hoffeq : offset + ((data.drop offset).take (off1 - offset)).length = off1 := by
            simp
            omega
          have h2' : Pooled.packFieldsAux pk F2 bufLen ns
              (offset + ((data.drop offset).take (off1 - offset)).length) =
              .ok ((data.drop off1).take (off2 - off1)) := by
            rw [hoffeq]
            exact hpack2 bufLen hbuf
          rw [packFieldsAux_cons_ok pk F2 bufLen n ns offset _ _ hsome2 hpk h2']
          have hsplit : off2 - offset = (off1 - offset) + (off2 - off1) := by omega
          rw [hsplit, List.take_add, List.drop_drop]
          have ho1 : offset + (off1 - offset) = off1 := by omega
          rw [ho1]
    · rename_i hbit
      have hbit' : bm.IsFieldSet n = false := by
        cases hfs : bm.IsFieldSet n
        · rfl
        · exact absurd hfs hbit
      obtain ⟨h1, h2, hframe, hpack⟩ := ih F offset F2 off2 hnd' hoff
        (fun k hk hkb => hinit k (List.mem_cons_of_mem _ hk) hkb) h
      have hF2n : F2 n = none := by
        rw [hframe n hnn]
        exact hinit n (List.mem_cons_self _ _) hbit'
      refine ⟨h1, h2, ?_, ?_⟩
      · intro m hm
        exact hframe m (fun hmns => hm (List.mem_cons_of_mem _ hmns))
      · intro bufLen hbuf
        rw [packFieldsAux_cons_skip pk F2 bufLen n ns offset (by rw [hF2n]; rfl)]
        exact hpack bufLen hbuf

/-- packBitmapBinary with the secondary indicator on. -/
theorem packBitmapBinary_sec (p s : List Nat) (bufLen : Nat) (hbuf : 16 ≤ bufLen) :
    BitmapManager.packBitmapBinary ⟨p, s, true⟩ bufLen = .ok (p ++ s) := by
  simp only [BitmapManager.packBitmapBinary]
  rw [if_neg (by simp; omega)]
  simp

/-- packBitmapBinary with the secondary indicator off. -/
theorem packBitmapBinary_noSec (p s : List Nat) (bufLen : Nat) (hbuf : 8 ≤ bufLen) :
    BitmapManager.packBitmapBinary ⟨p, s, false⟩ bufLen = .ok p := by
  simp only [BitmapManager.packBitmapBinary]
  rw [if_neg (by simp; omega)]
  simp

/-- packBitmapHex with the secondary indicator on. -/
theorem packBitmapHex_sec (p s : List Nat) (bufLen : Nat) (hbuf : 32 ≤ bufLen) :
    BitmapManager.packBitmapHex ⟨p, s, true⟩ bufLen =
      .ok (encodeHexUpper p ++ encodeHexUpper s) := by
  simp only [BitmapManager.packBitmapHex]
  rw [if_neg (by omega)]
  simp only [if_true]
  rw [if_neg (by omega)]

/-- packBitmapHex with the secondary indicator off. -/
theorem packBitmapHex_noSec (p s : List Nat) (bufLen : Nat) (hbuf : 16 ≤ bufLen) :
    BitmapManager.packBitmapHex ⟨p, s, false⟩ bufLen = .ok (encodeHexUpper p) := by
  simp only [BitmapManager.packBitmapHex]
  rw [if_neg (by omega)]
  simp

/-- Round trip of the bitmap: a successful unpack repacks to the consumed
bytes; for the hex encoding this needs the consumed characters to be
uppercase (lowercase input is re-emitted uppercase), and the consumed size
is 32 or 16 characters according to the secondary indicator. -/
theorem unpackBitmap_roundtrip (data : List Nat) (enc : BitmapManager.Encoding)
    (bm : BitmapManager) (c : Nat)
    (h : BitmapManager.UnpackBitmap BitmapManager.fresh data enc = .ok (bm, c)) :
    c ≤ data.length ∧
      (enc = BitmapManager.Encoding.hex → c = if bm.hasSecondary = true then 32 else 16) ∧
      ((enc = BitmapManager.Encoding.hex →
          ∀ i, i < c → isUpperHexDigit (data.getD i 0) = true) →
        ∀ bufLen, c ≤ bufLen →
          BitmapManager.PackBitmap bm bufLen enc = .ok (data.take c)) := by
  cases enc with
  | binary =>
    simp only [BitmapManager.UnpackBitmap, BitmapManager.unpackBitmapBinary] at h
    split at h
    · cases h
    · rename_i hlen8
      split at h
      · rename_i hsec
        split at h
        · cases h
        · rename_i hlen16
          simp only [Except.ok.injEq, Prod.mk.injEq] at h
          obtain ⟨hbm, hc⟩ := h
          subst hbm
          subst hc
          refine ⟨by omega, ?_, ?_⟩
          · intro he
            cases he
          · intro _ bufLen hbuf
            simp only [BitmapManager.PackBitmap]
            rw [packBitmapBinary_sec _ _ _ hbuf]
            have hsplit : data.take 16 = data.take 8 ++ (data.drop 8).take 8 := by
              rw [← List.take_add]
            rw [hsplit]
      · rename_i hsec
        simp only [Except.ok.injEq, Prod.mk.injEq] at h
        obtain ⟨hbm, hc⟩ := h
        subst hbm
        subst hc
        refine ⟨by omega, ?_, ?_⟩
        · intro he
          cases he
        · intro _ bufLen hbuf
          simp only [BitmapManager.PackBitmap]
          rw [packBitmapBinary_noSec _ _ _ hbuf]
  | hex =>
    simp only [BitmapManager.UnpackBitmap, BitmapManager.unpackBitmapHex] at h
    split at h
    · cases h
    · rename_i hlen16
      split at h
      · cases h
      · rename_i p hdec
        split at h
        · rename_i hsec
          split at h
          · cases h
          · rename_i hlen32
            split at h
            · cases h
            · rename_i s hdec2
              simp only [Except.ok.injEq, Prod.mk.injEq] at h
              obtain ⟨hbm, hc⟩ := h
              subst hbm
              subst hc
              refine ⟨by omega, ?_, ?_⟩
              · intro _
                simp
              · intro hhex bufLen hbuf
                simp only [BitmapManager.PackBitmap]
                rw [packBitmapHex_sec _ _ _ hbuf]
                have hupper1 : ∀ ch ∈ data.take 16, isUpperHexDigit ch = true :=
                  mem_take_of_getD data 16 _ (fun i hi => hhex rfl i (by omega))
                have hupper2 : ∀ ch ∈ (data.drop 16).take 16, isUpperHexDigit ch = true := by
                  refine mem_take_of_getD (data.drop 16) 16 _ (fun i hi => ?_)
                  rw [getD_drop]
                  exact hhex rfl (16 + i) (by omega)
                rw [encodeHexUpper_decodeHex _ _ hupper1 hdec,
                  encodeHexUpper_decodeHex _ _ hupper2 hdec2]
                have hsplit : data.take 32 = data.take 16 ++ (data.drop 16).take 16 := by
                  rw [← List.take_add]
                rw [hsplit]
        · rename_i hsec
          simp only [Except.ok.injEq, Prod.mk.injEq] at h
          obtain ⟨hbm, hc⟩ := h
          subst hbm
          subst hc
          refine ⟨by omega, ?_, ?_⟩
          · intro _
            simp
          · intro hhex bufLen hbuf
            simp only [BitmapManager.PackBitmap]
            rw [packBitmapHex_noSec _ _ _ hbuf]
            have hupper1 : ∀ ch ∈ data.take 16, isUpperHexDigit ch = true :=
              mem_take_of_getD data 16 _ (fun i hi => hhex rfl i (by omega))
            rw [encodeHexUpper_decodeHex _ _ hupper1 hdec]

/-- Pack, assembled from its three serialized parts. -/
theorem Pack_eq_of_parts (pk : Pooled.Packager) (mti hdr : List Nat) (bm : BitmapManager)
    (flds : Nat → Option (List Nat)) (bufLen : Nat) (bmBytes fieldBytes : List Nat)
    (hcap : hdr.length + 4 ≤ bufLen)
    (h3 : BitmapManager.PackBitmap bm (bufLen - (hdr.length + 4)) pk.bitmapEncoding =
      .ok bmBytes)
    (h4 : Pooled.packFieldsAux pk flds bufLen Pooled.fieldRange
      (hdr.length + 4 + bmBytes.length) = .ok fieldBytes) :
    Pooled.Pack pk { mti := mti, header := hdr, bitmap := bm, fields := flds } bufLen =
      .ok (hdr ++ mti ++ bmBytes ++ fieldBytes) := by
  have h1 : ¬ bufLen < hdr.length := by omega
  have h2 : ¬ bufLen < hdr.length + 4 := by omega
  simp [Pooled.Pack, h1, h2, h3, h4]

/-- Round trip from the MTI on: a successful unpackAfterHeader repacks (with
a buffer at least as large as what was consumed) to the header slice plus
exactly the other consumed bytes, provided hex-encoded bitmap characters
were uppercase. -/
theorem unpackAfterHeader_repack (pk : Pooled.Packager) (data : List Nat) (o1 : Nat)
    (hdr : List Nat) (msg : Pooled.Message) (c : Nat)
    (hh : Pooled.unpackAfterHeader pk data o1 hdr = .ok (msg, c))
    (hhdrlen : hdr.length = o1)
    (hhex : pk.bitmapEncoding = BitmapManager.Encoding.hex →
      ∀ i, i < (if msg.bitmap.hasSecondary = true then 32 else 16) →
        isUpperHexDigit (data.getD (o1 + 4 + i) 0) = true) :
    o1 + 4 ≤ c ∧ c ≤ data.length ∧ msg.header = hdr ∧
      ∀ bufLen, c ≤ bufLen →
        Pooled.Pack pk msg bufLen = .ok (hdr ++ (data.drop o1).take (c - o1)) := by
  simp only [Pooled.unpackAfterHeader] at hh
  split at hh
  · cases hh
  · rename_i hlen
    split at hh
    · cases hh
    · rename_i bm bitmapLen hbmEq
      split at hh
      · cases hh
      · rename_i flds offEnd hfEq
        simp only [Except.ok.injEq, Prod.mk.injEq] at hh
        obtain ⟨hmsg, hc⟩ := hh
        subst hc
        obtain ⟨hbmlen, hbmc, hbmpack⟩ :=
          unpackBitmap_roundtrip (data.drop (o1 + 4)) pk.bitmapEncoding bm bitmapLen hbmEq
        have hdataLen : (data.drop (o1 + 4)).length = data.length - (o1 + 4) := by simp
        rw [hdataLen] at hbmlen
        have hnodup : Pooled.fieldRange.Nodup := by
          simp only [Pooled.fieldRange]
          exact List.nodup_range' 2 127
        obtain ⟨hof1, hof2, hframe, hfpack⟩ :=
          unpackFields_roundtrip pk bm data Pooled.fieldRange (fun _ => none)
            (o1 + 4 + bitmapLen) flds offEnd hnodup (by omega)
            (fun k hk hkb => rfl) hfEq
        subst hmsg
        refine ⟨by omega, by omega, rfl, ?_⟩
        intro bufLen hbuf
        have hhex2 : pk.bitmapEncoding = BitmapManager.Encoding.hex →
            ∀ i, i < bitmapLen → isUpperHexDigit ((data.drop (o1 + 4)).getD i 0) = true := by
          intro he i hi
          rw [getD_drop]
          refine hhex he i ?_
          have := hbmc he
          simp only [this] at hi
          exact hi
        have hpackbm := hbmpack hhex2 (bufLen - (o1 + 4)) (by omega)
        have hblen : ((data.drop (o1 + 4)).take bitmapLen).length = bitmapLen := by
          simp
          omega
        have hfieldsEq : Pooled.packFieldsAux pk flds bufLen Pooled.fieldRange
            (hdr.length + 4 + ((data.drop (o1 + 4)).take bitmapLen).length) =
            .ok ((data.drop (o1 + 4 + bitmapLen)).take (offEnd - (o1 + 4 + bitmapLen))) := by
          rw [hblen, hhdrlen]
          exact hfpack bufLen hbuf
        have hpk := Pack_eq_of_parts pk ((data.drop o1).take 4) hdr bm flds bufLen
          ((data.drop (o1 + 4)).take bitmapLen)
          ((data.drop (o1 + 4 + bitmapLen)).take (offEnd - (o1 + 4 + bitmapLen)))
          (by omega)
          (by rw [hhdrlen]; exact hpackbm)
          hfieldsEq
        rw [hpk]
        have hsplit : (data.drop o1).take (offEnd - o1) =
            (data.drop o1).take 4 ++ ((data.drop (o1 + 4)).take bitmapLen ++
              (data.drop (o1 + 4 + bitmapLen)).take (offEnd - (o1 + 4 + bitmapLen))) := by
          have e1 : offEnd - o1 = 4 + (bitmapLen + (offEnd - (o1 + 4 + bitmapLen))) := by omega
          rw [e1, List.take_add, List.take_add, List.drop_drop, List.drop_drop]
        rw [hsplit]
        simp [List.append_assoc]

/-! ## Claim C1: Unpack/Pack round trip -/

/-- C1 (amended): for every buffer accepted by the pooled Message.Unpack,
repacking the resulting message into a buffer at least as large as what
Unpack consumed reproduces exactly the consumed prefix of the buffer —
not necessarily the whole buffer, since Unpack ignores trailing bytes —
provided that, under the hex bitmap encoding, the consumed bitmap
characters were uppercase (packBitmapHex always re-emits uppercase). -/
theorem C1_repack_consumed (pk : Pooled.Packager) (data : List Nat)
    (msg : Pooled.Message) (c : Nat) (bufLen : Nat)
    (h : Pooled.Unpack pk data = .ok (msg, c))
    (hbuf : c ≤ bufLen)
    (hhex : pk.bitmapEncoding = BitmapManager.Encoding.hex →
      ∀ i, i < (if msg.bitmap.hasSecondary = true then 32 else 16) →
        isUpperHexDigit (data.getD
          ((if pk.headerType = HeaderType.hNone then 0 else pk.headerLength) + 4 + i) 0) =
          true) :
    Pooled.Pack pk msg bufLen = .ok (data.take c) := by
  simp only [Pooled.Unpack] at h
  split at h
  · cases h
  · rename_i hlen4
    split at h
    · rename_i hht
      rw [if_pos hht] at hhex
      obtain ⟨h1, h2, h3, h4⟩ := unpackAfterHeader_repack pk data 0 [] msg c h rfl hhex
      rw [h4 bufLen hbuf]
      simp
    · rename_i hht
      split at h
      · cases h
      · rename_i hhlen
        rw [if_neg hht] at hhex
        have hdl : (data.take pk.headerLength).length = pk.headerLength := by
          simp
          omega
        obtain ⟨h1, h2, h3, h4⟩ := unpackAfterHeader_repack pk data pk.headerLength
          (data.take pk.headerLength) msg c h hdl hhex
        rw [h4 bufLen hbuf]
        have e1 : c = pk.headerLength + (c - pk.headerLength) := by omega
        have hsplit : data.take c =
            data.take pk.headerLength ++ (data.drop pk.headerLength).take (c - pk.headerLength) := by
          nth_rewrite 1 [e1]
          rw [List.take_add]
        rw [hsplit]

/-- Schema used by the C1 refutation: fields 5 and 7 are 1-byte FIXED, hex
bitmap, no header. -/
def c1Pk : Pooled.Packager :=
  { fieldConfigs := fun n =>
      if n = 5 || n = 7 then some { fieldType := FieldType.N, length := LengthType.Fixed, maxLength := 1 }
      else none,
    bitmapEncoding := BitmapManager.Encoding.hex,
    headerType := HeaderType.hNone,
    headerLength := 0 }

/-- Wire bytes used by the C1 refutation: MTI 0200, lowercase hex bitmap
"0a00000000000000" (fields 5 and 7), field bytes "AB", one trailing byte. -/
def c1Data : List Nat :=
  [48, 50, 48, 48] ++
    [48, 97, 48, 48, 48, 48, 48, 48, 48, 48, 48, 48, 48, 48, 48, 48] ++
    [65, 66] ++ [90]

/-- Unpack c1Data, then repack into an ample buffer. -/
def c1Repack : Except Err (List Nat) :=
  match Pooled.Unpack c1Pk c1Data with
  | .error e => .error e
  | .ok (msg, _) => Pooled.Pack c1Pk msg 64

/-- What the repack emits: the 22 consumed bytes, with the bitmap characters
now uppercase ("0A00000000000000") and the trailing byte gone. -/
def c1Out : List Nat :=
  [48, 50, 48, 48] ++
    [48, 65, 48, 48, 48, 48, 48, 48, 48, 48, 48, 48, 48, 48, 48, 48] ++
    [65, 66]

/-- Refutation of C1 as stated: Unpack accepts c1Data without error, yet
repacking the resulting message does not reproduce c1Data byte-for-byte
(the lowercase bitmap hex returns uppercase and the trailing byte is
dropped). -/
theorem C1_counterexample :
    (∃ r, Pooled.Unpack c1Pk c1Data = .ok r) ∧
    c1Repack = .ok c1Out ∧ c1Out ≠ c1Data :=
  ⟨⟨_, rfl⟩, rfl, by decide⟩

/-- Schema used by the C1 witness: no fields, hex bitmap, no header. -/
def c1wPk : Pooled.Packager :=
  { fieldConfigs := fun _ => none,
    bitmapEncoding := BitmapManager.Encoding.hex,
    headerType := HeaderType.hNone,
    headerLength := 0 }

/-- Wire bytes used by the C1 witness: MTI 0200 and an all-zero uppercase
hex bitmap; 20 bytes, all consumed. -/
def c1wData : List Nat := [48, 50, 48, 48] ++ List.replicate 16 48

/-- The message c1wData unpacks to. -/
def c1wMsg : Pooled.Message :=
  { mti := [48, 50, 48, 48],
    header := [],
    bitmap := { primary := List.replicate 8 0, secondary := List.replicate 8 0,
                hasSecondary := false },
    fields := fun _ => none }

/-- Concrete check of the amended C1: the 20 consumed bytes repack exactly. -/
theorem C1_repack_consumed_witness :
    Pooled.Pack c1wPk c1wMsg 20 = .ok (c1wData.take 20) :=
  C1_repack_consumed c1wPk c1wData c1wMsg 20 20 (by rfl) (by decide) (by decide)
